import Mathlib

/-!
# A verification of an Aho-Corasick multi-pattern matching automaton

This file gives a shallow embedding of an Aho-Corasick implementation:
a trie is built from a list of patterns, failure links are computed by a
breadth-first traversal, output sets are closed over failure links, and a
streaming search cursor consumes one symbol at a time.

The embedding mirrors the source code:
* nodes live in a dense vector, index 0 is the root;
* the per-node transition map is an association list with unique keys
  (the source uses a hash map; iteration order is insertion order here);
* the potentially non-terminating walks along failure links are given
  explicit fuel and return an `Option`, with `none` marking divergence;
* the runtime assertion in the failure construction is embedded as a
  `none` result, so `some` results certify that the assertion held.

Patterns are finite symbol lists over an arbitrary decidable alphabet.
-/

set_option linter.unusedSectionVars false

variable {C : Type} [DecidableEq C]

/-- A node of the automaton: transition map, failure link and the
pattern identities reported at this node. -/
structure AutomationNode (C : Type) where
  goto : List (C × Nat)
  failure : Nat
  outputs : List Nat
deriving DecidableEq

/-- A fresh node: no transitions, failure link to the root, no outputs. -/
def AutomationNode.new {C : Type} : AutomationNode C := ⟨[], 0, []⟩

/-- Association-list lookup used to model the per-node transition map. -/
def gotoLookup : List (C × Nat) → C → Option Nat
  | [], _ => none
  | (k, v) :: rest, c => if k = c then some v else gotoLookup rest c

/-- Follow the edge labelled `c`, when present. -/
def AutomationNode.enter_child (n : AutomationNode C) (c : C) : Option Nat :=
  gotoLookup n.goto c

/-- Does the node have an outgoing edge labelled `c`? -/
def AutomationNode.contains (n : AutomationNode C) (c : C) : Bool :=
  (gotoLookup n.goto c).isSome

/-- Add an edge labelled `c` to node `node_idx`. -/
def AutomationNode.add_child (n : AutomationNode C) (c : C) (node_idx : Nat) :
    AutomationNode C :=
  ⟨n.goto ++ [(c, node_idx)], n.failure, n.outputs⟩

/-- Append a pattern identity to the node's outputs. -/
def AutomationNode.add_output (n : AutomationNode C) (output : Nat) :
    AutomationNode C :=
  ⟨n.goto, n.failure, n.outputs ++ [output]⟩

/-- The automaton: the node vector and the catalog of inserted patterns
(the pattern with identity `i` is the `i`-th catalog entry). -/
structure Automation (C : Type) where
  nodes : List (AutomationNode C)
  outputs : List (List C)
deriving DecidableEq

/-- Read the node at an index (out-of-range reads never happen on the
states produced by the builder; they default to a fresh node). -/
def getN (nodes : List (AutomationNode C)) (i : Nat) : AutomationNode C :=
  nodes.getD i AutomationNode.new

/-- Replace the element at an index by applying `f` to it. -/
def modifyIdx {α : Type} : List α → Nat → (α → α) → List α
  | [], _, _ => []
  | a :: rest, 0, f => f a :: rest
  | a :: rest, i+1, f => a :: modifyIdx rest i f

/-- The walk of `add_item`: follow existing edges, allocating fresh nodes
for the missing ones; returns the updated vector and the terminal index. -/
def addItemGo : List (AutomationNode C) → Nat → List C →
    List (AutomationNode C) × Nat
  | nodes, node_idx, [] => (nodes, node_idx)
  | nodes, node_idx, c :: rest =>
    match (getN nodes node_idx).enter_child c with
    | some n => addItemGo nodes n rest
    | none =>
      let new_node_idx := nodes.length
      addItemGo
        (modifyIdx (nodes ++ [AutomationNode.new]) node_idx
          (fun nd => nd.add_child c new_node_idx))
        new_node_idx rest

/-- Insert one pattern: walk/extend the trie, then record a fresh pattern
identity at the terminal node and in the catalog. -/
def Automation.add_item (a : Automation C) (item : List C) : Automation C :=
  let r := addItemGo a.nodes 0 item
  ⟨modifyIdx r.1 r.2 (fun nd => nd.add_output a.outputs.length),
   a.outputs ++ [item]⟩

/-- Insert every pattern in order. -/
def Automation.add_items (a : Automation C) (items : List (List C)) :
    Automation C :=
  items.foldl Automation.add_item a

/-- Phase 1 of `build`: the automaton after all trie insertions, before
failure links are computed. -/
def buildTrie (items : List (List C)) : Automation C :=
  Automation.add_items ⟨[AutomationNode.new], []⟩ items

/-- The inner loop of the failure construction: repeatedly step to the
failure link until reaching the root or a node with a `c`-edge.  Fuel
exhaustion (which would be divergence in the source) yields `none`. -/
def lpsLoop (nodes : List (AutomationNode C)) (c : C) : Nat → Nat → Option Nat
  | 0, _ => none
  | fuel+1, lps0 =>
    let lps := (getN nodes lps0).failure
    if lps = 0 ∨ (getN nodes lps).contains c = true then some lps
    else lpsLoop nodes c fuel lps

/-- Process one BFS edge `(node_idx, c, next_node_idx)`: compute the
failure target of `next_node_idx` and merge the outputs of that target
into its outputs, skipping identities already present.  The runtime
assertion that a node is never its own failure target is embedded as a
`none` result. -/
def processEdge (nodes : List (AutomationNode C)) (node_idx : Nat) (c : C)
    (next_node_idx : Nat) : Option (List (AutomationNode C)) :=
  let olps : Option Nat :=
    if node_idx ≠ 0 then
      (lpsLoop nodes c nodes.length node_idx).map
        (fun w => ((getN nodes w).enter_child c).getD 0)
    else some 0
  match olps with
  | none => none
  | some lps =>
    if next_node_idx = lps then none
    else some (modifyIdx nodes next_node_idx (fun nd =>
      ⟨nd.goto, lps,
       nd.outputs ++
         ((getN nodes lps).outputs.filter (fun o => decide (o ∉ nd.outputs)))⟩))

/-- Process the edges of one dequeued node, left to right. -/
def processEdges : List (AutomationNode C) → Nat → List (C × Nat) →
    Option (List (AutomationNode C))
  | nodes, _, [] => some nodes
  | nodes, u, (c, v) :: rest =>
    match processEdge nodes u c v with
    | none => none
    | some nodes1 => processEdges nodes1 u rest

/-- The BFS driver of the failure construction.  Each dequeued node has
its edges processed and its children enqueued. -/
def bfsLoop : Nat → List (AutomationNode C) → List Nat →
    Option (List (AutomationNode C))
  | _, nodes, [] => some nodes
  | 0, _, _ :: _ => none
  | fuel+1, nodes, u :: rest =>
    match processEdges nodes u (getN nodes u).goto with
    | none => none
    | some nodes1 =>
      bfsLoop fuel nodes1 (rest ++ (getN nodes u).goto.map Prod.snd)

/-- Phase 2 of `build`: compute failure links and closed output sets by a
breadth-first traversal starting at the root. -/
def Automation.build_failure (a : Automation C) : Option (Automation C) :=
  (bfsLoop a.nodes.length a.nodes [0]).map (fun nodes => ⟨nodes, a.outputs⟩)

/-- Build the automaton from a list of patterns: trie insertion followed
by the failure construction. -/
def Automation.build (items : List (List C)) : Option (Automation C) :=
  (buildTrie items).build_failure

/-- The failure walk of the search cursor: while the current node is not
the root and has no `c`-edge, step to its failure link. -/
def failWalk (nodes : List (AutomationNode C)) (c : C) : Nat → Nat → Option Nat
  | 0, _ => none
  | fuel+1, current =>
    if current ≠ 0 ∧ ¬ (getN nodes current).contains c = true then
      failWalk nodes c fuel (getN nodes current).failure
    else some current

/-- One step of the search cursor: walk failure links, take the matching
edge (or fall back to the root), and report the outputs of the new
current node. -/
def searchNext (a : Automation C) (current : Nat) (c : C) :
    Option (Nat × List Nat) :=
  (failWalk a.nodes c a.nodes.length current).map (fun s =>
    let nxt := ((getN a.nodes s).enter_child c).getD 0
    (nxt, (getN a.nodes nxt).outputs))

/-- Feed a whole stream to the cursor, collecting the output sequence
reported after each symbol; returns the final cursor position as well. -/
def runSearch (a : Automation C) : Nat → List C → Option (Nat × List (List Nat))
  | current, [] => some (current, [])
  | current, c :: w =>
    match searchNext a current c with
    | none => none
    | some (cur1, out) =>
      match runSearch a cur1 w with
      | none => none
      | some (curF, outs) => some (curF, out :: outs)

/-- Creating a search cursor: its mutable state is just the current node
index, initialized at the root. -/
def Automation.search (_ : Automation C) : Nat := 0

/-! ## Specification-side definitions -/

/-- Follow a whole string through `goto` edges from a given node. -/
def followN (nodes : List (AutomationNode C)) : Nat → List C → Option Nat
  | v, [] => some v
  | v, c :: s =>
    match (getN nodes v).enter_child c with
    | some w => followN nodes w s
    | none => none

/-- The node reached by a string from the root, defaulting to the root. -/
def nodeOfD (nodes : List (AutomationNode C)) (s : List C) : Nat :=
  (followN nodes 0 s).getD 0

/-- The longest proper suffix of `s` that is a path of the trie (the
empty string always qualifies). -/
def lspOf (nodes : List (AutomationNode C)) : List C → List C
  | [] => []
  | _ :: rest =>
    if (followN nodes 0 rest).isSome then rest else lspOf nodes rest

/-- The longest (not necessarily proper) suffix of `s` that is a path of
the trie. -/
def lssOf (nodes : List (AutomationNode C)) : List C → List C
  | [] => []
  | c :: rest =>
    if (followN nodes 0 (c :: rest)).isSome then c :: rest
    else lssOf nodes rest

/-- The closed output list of the node at path `s`, as specified: the
node's own outputs first, then the closed outputs of its failure target
with the identities already present skipped.  `fuel` bounds the suffix
recursion; any `fuel ≥ s.length` gives the same value. -/
def closedOut (nodes : List (AutomationNode C)) : Nat → List C → List Nat
  | 0, s => (getN nodes (nodeOfD nodes s)).outputs
  | fuel+1, s =>
    match s with
    | [] => (getN nodes (nodeOfD nodes [])).outputs
    | _ :: _ =>
      let own := (getN nodes (nodeOfD nodes s)).outputs
      own ++ (closedOut nodes fuel (lspOf nodes s)).filter
        (fun o => decide (o ∉ own))

/-- Brute-force reference matcher: the identities of the patterns that
occur in `w` ending at position `i` (0-based). -/
def bruteMatches (patterns : List (List C)) (w : List C) (i : Nat) : List Nat :=
  (List.range patterns.length).filter
    (fun j => decide (patterns.getD j [] <:+ w.take (i+1)))

example : @Automation.build Nat _ [] =
    some ⟨[⟨[], 0, []⟩], []⟩ := by decide

example : @Automation.build Nat _ [[5]] =
    some ⟨[⟨[(5, 1)], 0, []⟩, ⟨[], 0, [0]⟩], [[5]]⟩ := by decide

example : (runSearch (⟨[⟨[(5, 1)], 0, []⟩, ⟨[], 0, [0]⟩], [[5]]⟩ :
    Automation Nat) 0 [4, 5, 5]).map Prod.snd = some [[], [0], [0]] := by decide

/-! ## Basic lemmas about the vector and lookup primitives -/

theorem modifyIdx_length {α : Type} (l : List α) (i : Nat) (f : α → α) :
    (modifyIdx l i f).length = l.length := by
  induction l generalizing i with
  | nil => rfl
  | cons a rest ih =>
    cases i with
    | zero => rfl
    | succ i => simp [modifyIdx, ih]

theorem getN_oob (nodes : List (AutomationNode C)) (i : Nat)
    (h : nodes.length ≤ i) : getN nodes i = AutomationNode.new := by
  simp [getN, List.getD_eq_getElem?_getD, List.getElem?_eq_none h]

theorem getN_cons_succ (a : AutomationNode C) (rest : List (AutomationNode C))
    (i : Nat) : getN (a :: rest) (i+1) = getN rest i := by
  simp [getN]

theorem getN_modifyIdx_self (nodes : List (AutomationNode C)) (i : Nat)
    (f : AutomationNode C → AutomationNode C) (h : i < nodes.length) :
    getN (modifyIdx nodes i f) i = f (getN nodes i) := by
  induction nodes generalizing i with
  | nil => simp at h
  | cons a rest ih =>
    cases i with
    | zero => simp [modifyIdx, getN]
    | succ i =>
      simp only [modifyIdx, getN_cons_succ]
      exact ih i (by simpa using h)

theorem getN_modifyIdx_ne (nodes : List (AutomationNode C)) (i j : Nat)
    (f : AutomationNode C → AutomationNode C) (h : j ≠ i) :
    getN (modifyIdx nodes i f) j = getN nodes j := by
  induction nodes generalizing i j with
  | nil => rfl
  | cons a rest ih =>
    cases i with
    | zero =>
      cases j with
      | zero => exact absurd rfl h
      | succ j => simp [modifyIdx, getN_cons_succ]
    | succ i =>
      cases j with
      | zero => simp [modifyIdx, getN]
      | succ j =>
        simp only [modifyIdx, getN_cons_succ]
        exact ih i j (by omega)

theorem getN_append_left (nodes ext : List (AutomationNode C)) (i : Nat)
    (h : i < nodes.length) : getN (nodes ++ ext) i = getN nodes i := by
  simp [getN, List.getD_eq_getElem?_getD, List.getElem?_append_left h]

theorem getN_append_new (nodes : List (AutomationNode C)) :
    getN (nodes ++ [AutomationNode.new]) nodes.length = AutomationNode.new := by
  simp [getN, List.getD_eq_getElem?_getD, List.getElem?_concat_length]

theorem gotoLookup_mem {g : List (C × Nat)} {c : C} {v : Nat}
    (h : gotoLookup g c = some v) : (c, v) ∈ g := by
  induction g with
  | nil => simp [gotoLookup] at h
  | cons kv rest ih =>
    obtain ⟨k, w⟩ := kv
    by_cases hk : k = c
    · subst hk
      simp [gotoLookup] at h
      simp [h]
    · simp [gotoLookup, hk] at h
      exact List.mem_cons_of_mem _ (ih h)

theorem gotoLookup_eq_none {g : List (C × Nat)} {c : C}
    (h : gotoLookup g c = none) : ∀ v, (c, v) ∉ g := by
  induction g with
  | nil => simp
  | cons kv rest ih =>
    obtain ⟨k, w⟩ := kv
    by_cases hk : k = c
    · subst hk; simp [gotoLookup] at h
    · simp [gotoLookup, hk] at h
      intro v hv
      rcases List.mem_cons.1 hv with h1 | h1
      · exact hk (congrArg Prod.fst h1).symm
      · exact ih h v h1

theorem gotoLookup_of_mem {g : List (C × Nat)} {c : C} {v : Nat}
    (hnd : (g.map Prod.fst).Nodup) (h : (c, v) ∈ g) :
    gotoLookup g c = some v := by
  induction g with
  | nil => simp at h
  | cons kv rest ih =>
    obtain ⟨k, w⟩ := kv
    simp only [List.map_cons, List.nodup_cons] at hnd
    rcases List.mem_cons.1 h with h1 | h1
    · rw [Prod.mk.injEq] at h1
      obtain ⟨rfl, rfl⟩ := h1
      simp [gotoLookup]
    · have hk : k ≠ c := by
        intro hkc; subst hkc
        exact hnd.1 (List.mem_map.2 ⟨(k, v), h1, rfl⟩)
      simp [gotoLookup, hk]
      exact ih hnd.2 h1

theorem gotoLookup_append (g1 g2 : List (C × Nat)) (c : C) :
    gotoLookup (g1 ++ g2) c =
      match gotoLookup g1 c with
      | some v => some v
      | none => gotoLookup g2 c := by
  induction g1 with
  | nil => simp [gotoLookup]
  | cons kv rest ih =>
    obtain ⟨k, w⟩ := kv
    by_cases hk : k = c
    · simp [gotoLookup, hk]
    · simp [gotoLookup, hk, ih]

/-! ## Following strings through the trie -/

theorem followN_append (nodes : List (AutomationNode C)) (v : Nat)
    (s t : List C) :
    followN nodes v (s ++ t) =
      (followN nodes v s).bind (fun w => followN nodes w t) := by
  induction s generalizing v with
  | nil => simp [followN]
  | cons c s ih =>
    simp only [List.cons_append, followN]
    cases (getN nodes v).enter_child c with
    | none => simp
    | some w => simpa using ih w

theorem followN_snoc (nodes : List (AutomationNode C)) (v : Nat) (s : List C)
    (c : C) :
    followN nodes v (s ++ [c]) =
      (followN nodes v s).bind (fun w => (getN nodes w).enter_child c) := by
  rw [followN_append]
  cases followN nodes v s with
  | none => rfl
  | some w =>
    simp only [Option.some_bind]
    show followN nodes w [c] = _
    simp only [followN]
    cases h : (getN nodes w).enter_child c <;> simp [followN, h]

/-- Structural well-formedness of the trie part of the automaton: edges
go strictly upward in index and stay in range, edge labels are unique
per node, and every non-root node has exactly one incoming edge. -/
structure TrieInv (nodes : List (AutomationNode C)) : Prop where
  nonempty : 0 < nodes.length
  edge_lt : ∀ u cv, cv ∈ (getN nodes u).goto → cv.2 < nodes.length
  edge_gt : ∀ u cv, cv ∈ (getN nodes u).goto → u < cv.2
  keys_nodup : ∀ u, ((getN nodes u).goto.map Prod.fst).Nodup
  parent_uniq : ∀ u1 u2 c1 c2 v, (c1, v) ∈ (getN nodes u1).goto →
    (c2, v) ∈ (getN nodes u2).goto → u1 = u2 ∧ c1 = c2
  parent_ex : ∀ v, 0 < v → v < nodes.length →
    ∃ u c, (c, v) ∈ (getN nodes u).goto

theorem followN_le {nodes : List (AutomationNode C)} (hT : TrieInv nodes)
    {v : Nat} {s : List C} {w : Nat} (h : followN nodes v s = some w) :
    v + s.length ≤ w := by
  induction s generalizing v with
  | nil =>
    simp only [followN, Option.some.injEq] at h
    simp [h]
  | cons c s ih =>
    simp only [followN] at h
    cases hu : (getN nodes v).enter_child c with
    | none => rw [hu] at h; simp at h
    | some u =>
      rw [hu] at h
      have hvu : v < u := hT.edge_gt v (c, u) (gotoLookup_mem hu)
      have := ih h
      simp only [List.length_cons]
      omega

theorem followN_lt {nodes : List (AutomationNode C)} (hT : TrieInv nodes)
    {v : Nat} {s : List C} {w : Nat} (hv : v < nodes.length)
    (h : followN nodes v s = some w) : w < nodes.length := by
  induction s generalizing v with
  | nil => simp [followN] at h; omega
  | cons c s ih =>
    simp only [followN] at h
    cases hu : (getN nodes v).enter_child c with
    | none => rw [hu] at h; simp at h
    | some u =>
      rw [hu] at h
      exact ih (hT.edge_lt v (c, u) (gotoLookup_mem hu)) h

theorem followN_zero_of_zero {nodes : List (AutomationNode C)}
    (hT : TrieInv nodes) {s : List C} (h : followN nodes 0 s = some 0) :
    s = [] := by
  have := followN_le hT h
  cases s with
  | nil => rfl
  | cons c s => simp at this

theorem followN_inj {nodes : List (AutomationNode C)} (hT : TrieInv nodes) :
    ∀ v s t, followN nodes 0 s = some v → followN nodes 0 t = some v →
      s = t := by
  intro v
  induction v using Nat.strong_induction_on with
  | _ v ih =>
    intro s t hs ht
    rcases List.eq_nil_or_concat' s with rfl | ⟨s0, c, rfl⟩
    · simp only [followN] at hs
      obtain rfl : v = 0 := by simpa using hs.symm
      exact (followN_zero_of_zero hT ht).symm
    · rcases List.eq_nil_or_concat' t with rfl | ⟨t0, c', rfl⟩
      · simp only [followN] at ht
        obtain rfl : v = 0 := by simpa using ht.symm
        have := followN_zero_of_zero hT hs
        simp at this
      · rw [followN_snoc] at hs ht
        cases hu : followN nodes 0 s0 with
        | none => rw [hu] at hs; simp at hs
        | some u =>
          cases hu' : followN nodes 0 t0 with
          | none => rw [hu'] at ht; simp at ht
          | some u' =>
            rw [hu] at hs; rw [hu'] at ht
            simp only [Option.some_bind] at hs ht
            have hmem : (c, v) ∈ (getN nodes u).goto := gotoLookup_mem hs
            have hmem' : (c', v) ∈ (getN nodes u').goto := gotoLookup_mem ht
            obtain ⟨rfl, rfl⟩ := hT.parent_uniq u u' c c' v hmem hmem'
            have huv : u < v := hT.edge_gt u (c, v) hmem
            rw [ih u huv s0 t0 hu hu']

/-- Equality of the transition structure of two node vectors. -/
def GotoEq (nodes1 nodes2 : List (AutomationNode C)) : Prop :=
  nodes1.length = nodes2.length ∧
  ∀ i, (getN nodes1 i).goto = (getN nodes2 i).goto

theorem gotoEq_refl (nodes : List (AutomationNode C)) : GotoEq nodes nodes :=
  ⟨rfl, fun _ => rfl⟩

theorem gotoEq_trans {nodes1 nodes2 nodes3 : List (AutomationNode C)}
    (h1 : GotoEq nodes1 nodes2) (h2 : GotoEq nodes2 nodes3) :
    GotoEq nodes1 nodes3 :=
  ⟨h1.1.trans h2.1, fun i => (h1.2 i).trans (h2.2 i)⟩

theorem followN_congr {nodes1 nodes2 : List (AutomationNode C)}
    (h : GotoEq nodes1 nodes2) (v : Nat) (s : List C) :
    followN nodes1 v s = followN nodes2 v s := by
  induction s generalizing v with
  | nil => rfl
  | cons c s ih =>
    simp only [followN, AutomationNode.enter_child, h.2 v]
    cases gotoLookup (getN nodes2 v).goto c with
    | none => rfl
    | some w => exact ih w

theorem nodeOfD_congr {nodes1 nodes2 : List (AutomationNode C)}
    (h : GotoEq nodes1 nodes2) (s : List C) :
    nodeOfD nodes1 s = nodeOfD nodes2 s := by
  simp [nodeOfD, followN_congr h]

theorem lspOf_congr {nodes1 nodes2 : List (AutomationNode C)}
    (h : GotoEq nodes1 nodes2) (s : List C) :
    lspOf nodes1 s = lspOf nodes2 s := by
  induction s with
  | nil => rfl
  | cons c s ih => simp [lspOf, followN_congr h, ih]

theorem lssOf_congr {nodes1 nodes2 : List (AutomationNode C)}
    (h : GotoEq nodes1 nodes2) (s : List C) :
    lssOf nodes1 s = lssOf nodes2 s := by
  induction s with
  | nil => rfl
  | cons c s ih => simp [lssOf, followN_congr h, ih]

theorem TrieInv_congr {nodes1 nodes2 : List (AutomationNode C)}
    (h : GotoEq nodes1 nodes2) (hT : TrieInv nodes1) : TrieInv nodes2 where
  nonempty := h.1 ▸ hT.nonempty
  edge_lt := fun u cv hm => h.1 ▸ hT.edge_lt u cv ((h.2 u) ▸ hm)
  edge_gt := fun u cv hm => hT.edge_gt u cv ((h.2 u) ▸ hm)
  keys_nodup := fun u => (h.2 u) ▸ hT.keys_nodup u
  parent_uniq := fun u1 u2 c1 c2 v h1 h2 =>
    hT.parent_uniq u1 u2 c1 c2 v ((h.2 u1) ▸ h1) ((h.2 u2) ▸ h2)
  parent_ex := fun v hv hlen => by
    obtain ⟨u, c, hm⟩ := hT.parent_ex v hv (h.1 ▸ hlen)
    exact ⟨u, c, (h.2 u) ▸ hm⟩

/-! ## The longest-suffix functions -/

/-- `s` is a path of the trie (readable from the root). -/
def TrPath (nodes : List (AutomationNode C)) (s : List C) : Prop :=
  ∃ v, followN nodes 0 s = some v

theorem trPath_iff_isSome {nodes : List (AutomationNode C)} {s : List C} :
    TrPath nodes s ↔ (followN nodes 0 s).isSome = true := by
  rw [Option.isSome_iff_exists]; rfl

theorem trPath_nil (nodes : List (AutomationNode C)) : TrPath nodes [] :=
  ⟨0, rfl⟩

theorem trPath_congr {nodes1 nodes2 : List (AutomationNode C)}
    (h : GotoEq nodes1 nodes2) {s : List C} :
    TrPath nodes1 s ↔ TrPath nodes2 s := by
  unfold TrPath; rw [followN_congr h]

theorem followN_nodeOfD {nodes : List (AutomationNode C)} {s : List C}
    (h : TrPath nodes s) : followN nodes 0 s = some (nodeOfD nodes s) := by
  obtain ⟨v, hv⟩ := h
  simp [nodeOfD, hv]

theorem trPath_of_snoc {nodes : List (AutomationNode C)} {s : List C} {c : C}
    (h : TrPath nodes (s ++ [c])) : TrPath nodes s := by
  obtain ⟨v, hv⟩ := h
  rw [followN_snoc] at hv
  cases hu : followN nodes 0 s with
  | none => rw [hu] at hv; simp at hv
  | some u => exact ⟨u, hu⟩

theorem trPath_snoc_iff_contains {nodes : List (AutomationNode C)}
    {s : List C} {v : Nat} (h : followN nodes 0 s = some v) (c : C) :
    TrPath nodes (s ++ [c]) ↔ (getN nodes v).contains c = true := by
  unfold TrPath
  rw [AutomationNode.contains, Option.isSome_iff_exists]
  constructor
  · rintro ⟨w, hw⟩
    rw [followN_snoc, h, Option.some_bind] at hw
    exact ⟨w, hw⟩
  · rintro ⟨w, hw⟩
    refine ⟨w, ?_⟩
    rw [followN_snoc, h, Option.some_bind]
    exact hw

theorem followN_snoc_some {nodes : List (AutomationNode C)} {s : List C}
    {v w : Nat} {c : C} (h : followN nodes 0 s = some v)
    (h2 : (getN nodes v).enter_child c = some w) :
    followN nodes 0 (s ++ [c]) = some w := by
  rw [followN_snoc, h, Option.some_bind, h2]

theorem suffix_snoc_snoc {t s : List C} (c : C) (h : t <:+ s) :
    t ++ [c] <:+ s ++ [c] := by
  obtain ⟨a, rfl⟩ := h
  exact ⟨a, (List.append_assoc a t [c]).symm⟩

theorem suffix_antisymm {s t : List C} (h1 : s <:+ t) (h2 : t <:+ s) :
    s = t :=
  h1.eq_of_length_le h2.length_le

theorem lspOf_suffix (nodes : List (AutomationNode C)) (s : List C) :
    lspOf nodes s <:+ s := by
  induction s with
  | nil => exact List.nil_suffix
  | cons c rest ih =>
    simp only [lspOf]
    by_cases h : (followN nodes 0 rest).isSome = true
    · simp only [h, if_true]
      exact (rest.suffix_cons c)
    · simp only [h, if_false]
      exact ih.trans (rest.suffix_cons c)

theorem lspOf_length_lt (nodes : List (AutomationNode C)) {s : List C}
    (h : s ≠ []) : (lspOf nodes s).length < s.length := by
  cases s with
  | nil => exact absurd rfl h
  | cons c rest =>
    simp only [lspOf, List.length_cons]
    by_cases h2 : (followN nodes 0 rest).isSome = true
    · simp [h2]
    · rw [if_neg h2]
      have := (lspOf_suffix nodes rest).length_le
      omega

theorem lspOf_tr (nodes : List (AutomationNode C)) (s : List C) :
    TrPath nodes (lspOf nodes s) := by
  induction s with
  | nil => exact trPath_nil nodes
  | cons c rest ih =>
    simp only [lspOf]
    by_cases h : (followN nodes 0 rest).isSome = true
    · simp only [h, if_true]
      exact trPath_iff_isSome.2 h
    · simpa only [h, if_false] using ih

theorem lspOf_max (nodes : List (AutomationNode C)) {s t : List C}
    (hsuff : t <:+ s) (hne : t ≠ s) (htr : TrPath nodes t) :
    t <:+ lspOf nodes s := by
  induction s with
  | nil =>
    exact absurd (List.suffix_nil.1 hsuff) hne
  | cons c rest ih =>
    rcases List.suffix_cons_iff.1 hsuff with h | h
    · exact absurd h hne
    · simp only [lspOf]
      by_cases h2 : (followN nodes 0 rest).isSome = true
      · simpa [h2] using h
      · simp only [h2, if_false]
        refine ih h ?_
        rintro rfl
        exact h2 (trPath_iff_isSome.1 htr)

theorem lssOf_suffix (nodes : List (AutomationNode C)) (s : List C) :
    lssOf nodes s <:+ s := by
  induction s with
  | nil => exact List.nil_suffix
  | cons c rest ih =>
    simp only [lssOf]
    by_cases h : (followN nodes 0 (c :: rest)).isSome = true
    · simp [h]
    · simp only [h, if_false]
      exact ih.trans (rest.suffix_cons c)

theorem lssOf_tr (nodes : List (AutomationNode C)) (s : List C) :
    TrPath nodes (lssOf nodes s) := by
  induction s with
  | nil => exact trPath_nil nodes
  | cons c rest ih =>
    simp only [lssOf]
    by_cases h : (followN nodes 0 (c :: rest)).isSome = true
    · simp only [h, if_true]
      exact trPath_iff_isSome.2 h
    · simpa only [h, if_false] using ih

theorem lssOf_max (nodes : List (AutomationNode C)) {s t : List C}
    (hsuff : t <:+ s) (htr : TrPath nodes t) : t <:+ lssOf nodes s := by
  induction s with
  | nil =>
    rw [List.suffix_nil.1 hsuff]
    exact List.nil_suffix
  | cons c rest ih =>
    simp only [lssOf]
    by_cases h2 : (followN nodes 0 (c :: rest)).isSome = true
    · simpa [h2] using hsuff
    · simp only [h2, if_false]
      rcases List.suffix_cons_iff.1 hsuff with h | h
      · subst h
        exact absurd (trPath_iff_isSome.1 htr) h2
      · exact ih h

theorem lssOf_of_tr {nodes : List (AutomationNode C)} {s : List C}
    (h : TrPath nodes s) : lssOf nodes s = s :=
  suffix_antisymm (lssOf_suffix nodes s) (lssOf_max nodes List.suffix_rfl h)

/-! ## Stability and unfolding of `closedOut` -/

theorem closedOut_nil (nodes : List (AutomationNode C)) (fuel : Nat) :
    closedOut nodes fuel [] = (getN nodes (nodeOfD nodes [])).outputs := by
  cases fuel <;> rfl

theorem closedOut_stable (nodes : List (AutomationNode C)) :
    ∀ fuel1 fuel2 s, s.length ≤ fuel1 → s.length ≤ fuel2 →
      closedOut nodes fuel1 s = closedOut nodes fuel2 s := by
  intro fuel1
  induction fuel1 with
  | zero =>
    intro fuel2 s h1 h2
    have : s = [] := by
      cases s with
      | nil => rfl
      | cons c rest => simp at h1
    subst this
    rw [closedOut_nil, closedOut_nil]
  | succ f1 ih =>
    intro fuel2 s h1 h2
    cases s with
    | nil => rw [closedOut_nil, closedOut_nil]
    | cons c rest =>
      cases fuel2 with
      | zero => simp at h2
      | succ f2 =>
        show _ ++ _ = _ ++ _
        have hlt : (lspOf nodes (c :: rest)).length < (c :: rest).length :=
          lspOf_length_lt nodes (by simp)
        simp only [List.length_cons] at h1 h2 hlt
        rw [ih f2 (lspOf nodes (c :: rest)) (by omega) (by omega)]

theorem closedOut_unfold (nodes : List (AutomationNode C)) {s : List C}
    (h : s ≠ []) :
    closedOut nodes s.length s =
      (getN nodes (nodeOfD nodes s)).outputs ++
        (closedOut nodes (lspOf nodes s).length (lspOf nodes s)).filter
          (fun o => decide (o ∉ (getN nodes (nodeOfD nodes s)).outputs)) := by
  cases s with
  | nil => exact absurd rfl h
  | cons c rest =>
    have hlt : (lspOf nodes (c :: rest)).length < (c :: rest).length :=
      lspOf_length_lt nodes (by simp)
    simp only [List.length_cons] at hlt
    show _ ++ _ = _ ++ _
    rw [closedOut_stable nodes rest.length (lspOf nodes (c :: rest)).length
      (lspOf nodes (c :: rest)) (by omega) (Nat.le_refl _)]

/-! ## The trie phase: insertion extends the trie conservatively -/

/-- `nodes'` extends `nodes`: old nodes keep their failure and output
fields and all their edges; edges present in `nodes'` but not in
`nodes` point at fresh indices; fresh nodes carry no outputs and a zero
failure link. -/
structure TrieExt (nodes nodes' : List (AutomationNode C)) : Prop where
  len_le : nodes.length ≤ nodes'.length
  keep : ∀ v, v < nodes.length →
    (getN nodes' v).failure = (getN nodes v).failure ∧
    (getN nodes' v).outputs = (getN nodes v).outputs
  old_edge : ∀ v c w, v < nodes.length →
    gotoLookup (getN nodes v).goto c = some w →
    gotoLookup (getN nodes' v).goto c = some w
  new_edge : ∀ v c w, gotoLookup (getN nodes' v).goto c = some w →
    gotoLookup (getN nodes v).goto c = some w ∨ nodes.length ≤ w
  fresh : ∀ v, nodes.length ≤ v →
    (getN nodes' v).outputs = [] ∧ (getN nodes' v).failure = 0

theorem trieExt_refl (nodes : List (AutomationNode C)) : TrieExt nodes nodes where
  len_le := Nat.le_refl _
  keep := fun _ _ => ⟨rfl, rfl⟩
  old_edge := fun _ _ _ _ h => h
  new_edge := fun _ _ _ h => Or.inl h
  fresh := fun v hv => by rw [getN_oob nodes v hv]; exact ⟨rfl, rfl⟩

theorem trieExt_trans {nodes1 nodes2 nodes3 : List (AutomationNode C)}
    (h12 : TrieExt nodes1 nodes2) (h23 : TrieExt nodes2 nodes3) : TrieExt nodes1 nodes3 where
  len_le := h12.len_le.trans h23.len_le
  keep := fun v hv => by
    obtain ⟨hf, ho⟩ := h23.keep v (Nat.lt_of_lt_of_le hv h12.len_le)
    obtain ⟨hf', ho'⟩ := h12.keep v hv
    exact ⟨hf.trans hf', ho.trans ho'⟩
  old_edge := fun v c w hv h =>
    h23.old_edge v c w (Nat.lt_of_lt_of_le hv h12.len_le) (h12.old_edge v c w hv h)
  new_edge := fun v c w h => by
    rcases h23.new_edge v c w h with h2 | h2
    · rcases h12.new_edge v c w h2 with h1 | h1
      · exact Or.inl h1
      · exact Or.inr h1
    · exact Or.inr (h12.len_le.trans h2)
  fresh := fun v hv => by
    by_cases hv2 : nodes2.length ≤ v
    · exact h23.fresh v hv2
    · obtain ⟨ho, hf⟩ := h12.fresh v hv
      obtain ⟨hf', ho'⟩ := h23.keep v (Nat.lt_of_not_le hv2)
      exact ⟨ho' ▸ ho, hf' ▸ hf⟩

theorem followN_ext {nodes nodes' : List (AutomationNode C)}
    (hE : TrieExt nodes nodes') (hT : TrieInv nodes) :
    ∀ s w v, w < nodes.length → followN nodes w s = some v →
      followN nodes' w s = some v := by
  intro s
  induction s with
  | nil => intro w v _ h; exact h
  | cons c rest ih =>
    intro w v hw h
    simp only [followN] at h ⊢
    cases hu : (getN nodes w).enter_child c with
    | none => rw [hu] at h; simp at h
    | some u =>
      rw [hu] at h
      have hu' : (getN nodes' w).enter_child c = some u :=
        hE.old_edge w c u hw hu
      rw [hu']
      exact ih u v (hT.edge_lt w (c, u) (gotoLookup_mem hu)) h

theorem followN_ext_rev {nodes nodes' : List (AutomationNode C)}
    (hE : TrieExt nodes nodes') (hT' : TrieInv nodes') :
    ∀ s w v, w < nodes.length → followN nodes' w s = some v →
      v < nodes.length → followN nodes w s = some v := by
  intro s
  induction s with
  | nil => intro w v _ h _; exact h
  | cons c rest ih =>
    intro w v hw h hv
    simp only [followN] at h ⊢
    cases hu : (getN nodes' w).enter_child c with
    | none => rw [hu] at h; simp at h
    | some u =>
      rw [hu] at h
      rcases hE.new_edge w c u hu with hold | hbig
      · have hulen : u < nodes.length := by
          by_cases hu2 : u < nodes.length
          · exact hu2
          · have := followN_le hT' h
            omega
        rw [show (getN nodes w).enter_child c = some u from hold]
        exact ih u v hulen h hv
      · have := followN_le hT' h
        omega

theorem gotoLookup_single (c c' : C) (w : Nat) :
    gotoLookup [(c, w)] c' = if c = c' then some w else none := by
  simp [gotoLookup]

theorem key_not_mem_of_lookup_none {g : List (C × Nat)} {c : C}
    (h : gotoLookup g c = none) : c ∉ g.map Prod.fst := by
  intro hmem
  obtain ⟨⟨k, w⟩, hkw, hk⟩ := List.mem_map.1 hmem
  dsimp at hk
  subst hk
  exact gotoLookup_eq_none h w hkw

theorem extendNode_spec {nodes : List (AutomationNode C)} (hT : TrieInv nodes)
    {idx : Nat} (hidx : idx < nodes.length) {c : C}
    (hnone : gotoLookup (getN nodes idx).goto c = none) :
    TrieInv (modifyIdx (nodes ++ [AutomationNode.new]) idx
        (fun nd => nd.add_child c nodes.length)) ∧
    TrieExt nodes (modifyIdx (nodes ++ [AutomationNode.new]) idx
        (fun nd => nd.add_child c nodes.length)) ∧
    (modifyIdx (nodes ++ [AutomationNode.new]) idx
        (fun nd => nd.add_child c nodes.length)).length = nodes.length + 1 ∧
    followN (modifyIdx (nodes ++ [AutomationNode.new]) idx
        (fun nd => nd.add_child c nodes.length)) idx [c] =
      some nodes.length := by
  set n1 := modifyIdx (nodes ++ [AutomationNode.new]) idx
    (fun nd => nd.add_child c nodes.length) with hn1
  have hlen : n1.length = nodes.length + 1 := by
    rw [hn1, modifyIdx_length, List.length_append, List.length_singleton]
  have hg_idx : getN n1 idx = (getN nodes idx).add_child c nodes.length := by
    rw [hn1, getN_modifyIdx_self _ _ _
      (by rw [List.length_append, List.length_singleton]; omega),
      getN_append_left _ _ _ hidx]
  have hg_other : ∀ v, v ≠ idx → getN n1 v = getN nodes v ∨
      (v = nodes.length ∧ getN n1 v = AutomationNode.new) := by
    intro v hv
    by_cases hvlen : v < nodes.length
    · exact Or.inl (by rw [hn1, getN_modifyIdx_ne _ _ _ _ hv,
        getN_append_left _ _ _ hvlen])
    · by_cases hveq : v = nodes.length
      · refine Or.inr ⟨hveq, ?_⟩
        rw [hn1, getN_modifyIdx_ne _ _ _ _ hv, hveq, getN_append_new]
      · refine Or.inl ?_
        rw [hn1, getN_modifyIdx_ne _ _ _ _ hv,
          getN_oob _ _ (by rw [List.length_append, List.length_singleton]; omega),
          getN_oob _ _ (by omega)]
  have hg_other_goto : ∀ v, v ≠ idx →
      (getN n1 v).goto = (getN nodes v).goto := by
    intro v hv
    rcases hg_other v hv with h | ⟨hveq, h⟩
    · rw [h]
    · rw [h, getN_oob _ _ (by omega)]
  have hmem_inv : ∀ u cv, cv ∈ (getN n1 u).goto →
      cv ∈ (getN nodes u).goto ∨ (u = idx ∧ cv = (c, nodes.length)) := by
    intro u cv hcv
    by_cases hu : u = idx
    · subst hu
      rw [hg_idx] at hcv
      rcases List.mem_append.1 hcv with h | h
      · exact Or.inl h
      · exact Or.inr ⟨rfl, by simpa using h⟩
    · exact Or.inl (hg_other_goto u hu ▸ hcv)
  have hlook : ∀ v c', gotoLookup (getN n1 v).goto c' =
      if v = idx ∧ c' = c then some nodes.length
      else gotoLookup (getN nodes v).goto c' := by
    intro v c'
    by_cases hv : v = idx
    · subst hv
      rw [hg_idx]
      show gotoLookup ((getN nodes v).goto ++ [(c, nodes.length)]) c' = _
      rw [gotoLookup_append]
      by_cases hc : c' = c
      · subst hc
        rw [hnone]
        simp [gotoLookup_single]
      · simp only [hc, and_false, if_false]
        cases h : gotoLookup (getN nodes v).goto c' with
        | none => simp [gotoLookup_single, Ne.symm hc]
        | some w => rfl
    · rw [hg_other_goto v hv]
      simp [hv]
  have hTrie1 : TrieInv n1 := by
    refine ⟨by omega, ?_, ?_, ?_, ?_, ?_⟩
    · intro u cv hcv
      rcases hmem_inv u cv hcv with h | ⟨_, rfl⟩
      · have := hT.edge_lt u cv h
        omega
      · simp; omega
    · intro u cv hcv
      rcases hmem_inv u cv hcv with h | ⟨rfl, rfl⟩
      · exact hT.edge_gt u cv h
      · simpa using hidx
    · intro u
      by_cases hu : u = idx
      · subst hu
        rw [hg_idx]
        show ((getN nodes u).goto ++ [(c, nodes.length)]).map Prod.fst |>.Nodup
        rw [List.map_append]
        simp only [List.map_cons, List.map_nil]
        rw [List.nodup_append]
        refine ⟨hT.keys_nodup u, List.nodup_singleton c, ?_⟩
        intro k hk
        simp only [List.mem_singleton]
        intro hkc
        subst hkc
        exact key_not_mem_of_lookup_none hnone hk
      · rw [hg_other_goto u hu]
        exact hT.keys_nodup u
    · intro u1 u2 c1 c2 v h1 h2
      rcases hmem_inv u1 (c1, v) h1 with h1' | ⟨he1, heq1⟩
      · rcases hmem_inv u2 (c2, v) h2 with h2' | ⟨he2, heq2⟩
        · exact hT.parent_uniq u1 u2 c1 c2 v h1' h2'
        · rw [Prod.mk.injEq] at heq2
          have := hT.edge_lt u1 (c1, v) h1'
          dsimp at this
          omega
      · rw [Prod.mk.injEq] at heq1
        rcases hmem_inv u2 (c2, v) h2 with h2' | ⟨he2, heq2⟩
        · have := hT.edge_lt u2 (c2, v) h2'
          dsimp at this
          omega
        · rw [Prod.mk.injEq] at heq2
          refine ⟨?_, ?_⟩
          · rw [he1, he2]
          · rw [heq1.1, heq2.1]
    · intro v hv0 hvlen
      by_cases hvlt : v < nodes.length
      · obtain ⟨u, c', hm⟩ := hT.parent_ex v hv0 hvlt
        refine ⟨u, c', ?_⟩
        by_cases hu : u = idx
        · subst hu
          rw [hg_idx]
          exact List.mem_append_left _ hm
        · rw [hg_other_goto u hu]
          exact hm
      · have hveq : v = nodes.length := by omega
        subst hveq
        refine ⟨idx, c, ?_⟩
        rw [hg_idx]
        exact List.mem_append_right _ (by simp)
  have hExt1 : TrieExt nodes n1 := by
    refine ⟨by omega, ?_, ?_, ?_, ?_⟩
    · intro v hv
      by_cases hvi : v = idx
      · subst hvi
        rw [hg_idx]
        exact ⟨rfl, rfl⟩
      · rcases hg_other v hvi with h | ⟨hveq, h⟩
        · rw [h]; exact ⟨rfl, rfl⟩
        · omega
    · intro v c' w hv h
      rw [hlook]
      by_cases hc : v = idx ∧ c' = c
      · obtain ⟨rfl, rfl⟩ := hc
        rw [hnone] at h
        simp at h
      · rw [if_neg hc]
        exact h
    · intro v c' w h
      rw [hlook] at h
      by_cases hc : v = idx ∧ c' = c
      · rw [if_pos hc] at h
        obtain rfl : nodes.length = w := by simpa using h
        exact Or.inr (Nat.le_refl _)
      · rw [if_neg hc] at h
        exact Or.inl h
    · intro v hv
      have hne : v ≠ idx := by omega
      rcases hg_other v hne with h | ⟨hveq2, h⟩
      · rw [h, getN_oob _ _ (by omega)]
        exact ⟨rfl, rfl⟩
      · rw [h]
        exact ⟨rfl, rfl⟩
  refine ⟨hTrie1, hExt1, hlen, ?_⟩
  show followN n1 idx [c] = some nodes.length
  simp only [followN, AutomationNode.enter_child]
  rw [hlook]
  simp [followN]

theorem followN_one (nodes : List (AutomationNode C)) (v : Nat) (c : C) :
    followN nodes v [c] = (getN nodes v).enter_child c := by
  simp only [followN]
  cases h : (getN nodes v).enter_child c <;> simp [followN]

theorem addItemGo_spec :
    ∀ (cs : List C) (nodes : List (AutomationNode C)) (idx : Nat),
      TrieInv nodes → idx < nodes.length →
      TrieInv (addItemGo nodes idx cs).1 ∧
      TrieExt nodes (addItemGo nodes idx cs).1 ∧
      followN (addItemGo nodes idx cs).1 idx cs =
        some (addItemGo nodes idx cs).2 ∧
      (addItemGo nodes idx cs).2 < (addItemGo nodes idx cs).1.length ∧
      (∀ v, nodes.length ≤ v → v < (addItemGo nodes idx cs).1.length →
        ∃ k, followN (addItemGo nodes idx cs).1 idx (cs.take k) = some v) := by
  intro cs
  induction cs with
  | nil =>
    intro nodes idx hT hidx
    simp only [addItemGo]
    refine ⟨hT, trieExt_refl nodes, rfl, hidx, ?_⟩
    intro v h1 h2
    omega
  | cons c rest ih =>
    intro nodes idx hT hidx
    cases hcz : (getN nodes idx).enter_child c with
    | some n =>
      have hred : addItemGo nodes idx (c :: rest) = addItemGo nodes n rest := by
        simp [addItemGo, hcz]
      have hn : n < nodes.length := hT.edge_lt idx (c, n) (gotoLookup_mem hcz)
      obtain ⟨h1, h2, h3, h4, h5⟩ := ih nodes n hT hn
      have hstep : (getN (addItemGo nodes n rest).1 idx).enter_child c =
          some n := h2.old_edge idx c n hidx hcz
      rw [hred]
      refine ⟨h1, h2, ?_, h4, ?_⟩
      · simp only [followN, hstep]
        exact h3
      · intro v hv1 hv2
        obtain ⟨k, hk⟩ := h5 v hv1 hv2
        refine ⟨k + 1, ?_⟩
        rw [List.take_succ_cons]
        simp only [followN, hstep]
        exact hk
    | none =>
      have hred : addItemGo nodes idx (c :: rest) =
          addItemGo (modifyIdx (nodes ++ [AutomationNode.new]) idx
            (fun nd => nd.add_child c nodes.length)) nodes.length rest := by
        simp [addItemGo, hcz]
      obtain ⟨hT1, hE1, hlen1, hf1⟩ := extendNode_spec hT hidx hcz
      obtain ⟨h1, h2, h3, h4, h5⟩ :=
        ih (modifyIdx (nodes ++ [AutomationNode.new]) idx
          (fun nd => nd.add_child c nodes.length)) nodes.length hT1 (by omega)
      have hedge1 : (getN (modifyIdx (nodes ++ [AutomationNode.new]) idx
          (fun nd => nd.add_child c nodes.length)) idx).enter_child c =
          some nodes.length := by
        rw [← followN_one]
        exact hf1
      have hstep : (getN (addItemGo (modifyIdx (nodes ++ [AutomationNode.new])
          idx (fun nd => nd.add_child c nodes.length)) nodes.length rest).1
          idx).enter_child c = some nodes.length :=
        h2.old_edge idx c nodes.length (by omega) hedge1
      rw [hred]
      refine ⟨h1, trieExt_trans hE1 h2, ?_, h4, ?_⟩
      · simp only [followN, hstep]
        exact h3
      · intro v hv1 hv2
        by_cases hveq : v = nodes.length
        · refine ⟨1, ?_⟩
          show followN _ idx [c] = some v
          rw [followN_one, hstep, hveq]
        · have hvbig : (modifyIdx (nodes ++ [AutomationNode.new]) idx
              (fun nd => nd.add_child c nodes.length)).length ≤ v := by
            omega
          obtain ⟨k, hk⟩ := h5 v hvbig hv2
          refine ⟨k + 1, ?_⟩
          rw [List.take_succ_cons]
          simp only [followN, hstep]
          exact hk

theorem getD_append_lt {α : Type} (l1 l2 : List α) (j : Nat) (d : α)
    (h : j < l1.length) : (l1 ++ l2).getD j d = l1.getD j d := by
  simp [List.getD_eq_getElem?_getD, List.getElem?_append_left h]

theorem getD_append_len {α : Type} (l1 : List α) (x d : α) :
    (l1 ++ [x]).getD l1.length d = x := by
  simp [List.getD_eq_getElem?_getD, List.getElem?_concat_length]

/-- Semantic description of the trie produced by the insertion phase:
well-formed, every node reachable, outputs of the node at path `s` are
exactly the identities of the patterns equal to `s`, outputs are
duplicate-free, failure links are still zero, and every catalog entry is
a path of the trie. -/
structure TrieSpec (nodes : List (AutomationNode C)) (pats : List (List C)) :
    Prop where
  inv : TrieInv nodes
  reach : ∀ v, v < nodes.length → ∃ s, followN nodes 0 s = some v
  out_char : ∀ s v, followN nodes 0 s = some v → ∀ j,
    (j ∈ (getN nodes v).outputs ↔ j < pats.length ∧ pats.getD j [] = s)
  out_nodup : ∀ v, (getN nodes v).outputs.Nodup
  fail_zero : ∀ v, (getN nodes v).failure = 0
  pat_tr : ∀ j, j < pats.length → TrPath nodes (pats.getD j [])

theorem getN_root_only (u : Nat) :
    getN ([AutomationNode.new] : List (AutomationNode C)) u =
      AutomationNode.new := by
  cases u with
  | zero => rfl
  | succ u => rw [getN_oob]; simp

theorem trieSpec_init : TrieSpec ([AutomationNode.new] :
    List (AutomationNode C)) [] := by
  have hg : ∀ u, (getN ([AutomationNode.new] : List (AutomationNode C)) u).goto
      = [] := by
    intro u; rw [getN_root_only]; rfl
  refine ⟨⟨by simp, ?_, ?_, ?_, ?_, ?_⟩, ?_, ?_, ?_, ?_, ?_⟩
  · intro u cv hcv; rw [hg] at hcv; simp at hcv
  · intro u cv hcv; rw [hg] at hcv; simp at hcv
  · intro u; rw [hg]; simp
  · intro u1 u2 c1 c2 v h1 h2; rw [hg] at h1; simp at h1
  · intro v hv0 hvlen; simp at hvlen; omega
  · intro v hv
    simp only [List.length_singleton] at hv
    have : v = 0 := by omega
    subst this
    exact ⟨[], rfl⟩
  · intro s v hsv j
    cases s with
    | nil =>
      simp only [followN, Option.some.injEq] at hsv
      subst hsv
      show j ∈ AutomationNode.new.outputs ↔ _
      simp [AutomationNode.new]
    | cons c rest =>
      simp only [followN, AutomationNode.enter_child, hg, gotoLookup] at hsv
      exact Option.noConfusion hsv
  · intro v; rw [getN_root_only]; exact List.nodup_nil
  · intro v; rw [getN_root_only]; rfl
  · intro j hj; simp at hj

theorem add_item_outputs (a : Automation C) (item : List C) :
    (a.add_item item).outputs = a.outputs ++ [item] := rfl

theorem add_item_spec {a : Automation C}
    (hS : TrieSpec a.nodes a.outputs) (item : List C) :
    TrieSpec (a.add_item item).nodes (a.add_item item).outputs := by
  obtain ⟨hT1, hE, hfol, hterm, hreach_new⟩ :=
    addItemGo_spec item a.nodes 0 hS.inv hS.inv.nonempty
  show TrieSpec (modifyIdx (addItemGo a.nodes 0 item).1
    (addItemGo a.nodes 0 item).2 (fun nd => nd.add_output a.outputs.length))
    (a.outputs ++ [item])
  set res := addItemGo a.nodes 0 item with hres
  set n := a.outputs.length with hn
  set nodes' := modifyIdx res.1 res.2 (fun nd => nd.add_output n) with hnodes'
  have hlen' : nodes'.length = res.1.length := modifyIdx_length _ _ _
  have hgetT : getN nodes' res.2 = (getN res.1 res.2).add_output n :=
    getN_modifyIdx_self _ _ _ hterm
  have hgetO : ∀ v, v ≠ res.2 → getN nodes' v = getN res.1 v := by
    intro v hv
    exact getN_modifyIdx_ne _ _ _ _ hv
  have hGE : GotoEq res.1 nodes' := by
    refine ⟨hlen'.symm, ?_⟩
    intro i
    by_cases hi : i = res.2
    · subst hi; rw [hgetT]; rfl
    · rw [hgetO i hi]
  have hT' : TrieInv nodes' := TrieInv_congr hGE hT1
  have hfol' : followN nodes' 0 item = some res.2 := by
    rw [← followN_congr hGE]
    exact hfol
  have h0len : (0 : Nat) < a.nodes.length := hS.inv.nonempty
  have hfolA : ∀ s v, followN nodes' 0 s = some v →
      followN res.1 0 s = some v := by
    intro s v h
    rw [followN_congr hGE]
    exact h
  -- outputs of the old trie nodes transported into the new one
  have hout_old : ∀ v, v < a.nodes.length →
      (getN res.1 v).outputs = (getN a.nodes v).outputs :=
    fun v hv => (hE.keep v hv).2
  have hout_fresh : ∀ v, a.nodes.length ≤ v →
      (getN res.1 v).outputs = [] :=
    fun v hv => (hE.fresh v hv).1
  -- the terminal node is the node of `item` in the old trie when it is old
  have hterm_old : res.2 < a.nodes.length →
      followN a.nodes 0 item = some res.2 := by
    intro hlt
    obtain ⟨s0, hs0⟩ := hS.reach res.2 hlt
    have hs0' : followN res.1 0 s0 = some res.2 :=
      followN_ext hE hS.inv s0 0 res.2 h0len hs0
    have : s0 = item := followN_inj hT1 res.2 s0 item hs0' hfol
    rw [← this]
    exact hs0
  -- a pattern of the old catalog reaches an old node in the new trie
  have hpat_node : ∀ j, j < n → ∃ w, w < a.nodes.length ∧
      followN res.1 0 (a.outputs.getD j []) = some w := by
    intro j hj
    obtain ⟨w, hw⟩ := hS.pat_tr j hj
    have hwlt : w < a.nodes.length := followN_lt hS.inv h0len hw
    exact ⟨w, hwlt, followN_ext hE hS.inv _ 0 w h0len hw⟩
  refine ⟨hT', ?_, ?_, ?_, ?_, ?_⟩
  · -- reach
    intro v hv
    rw [hlen'] at hv
    by_cases hvo : v < a.nodes.length
    · obtain ⟨s, hs⟩ := hS.reach v hvo
      exact ⟨s, by rw [← followN_congr hGE]
                   exact followN_ext hE hS.inv s 0 v h0len hs⟩
    · obtain ⟨k, hk⟩ := hreach_new v (by omega) hv
      exact ⟨item.take k, by rw [← followN_congr hGE]; exact hk⟩
  · -- out_char
    intro s v hsv j
    have hsv1 : followN res.1 0 s = some v := hfolA s v hsv
    by_cases hvt : v = res.2
    · subst hvt
      have hs_item : s = item := followN_inj hT1 res.2 s item hsv1 hfol
      subst hs_item
      rw [hgetT]
      show j ∈ (getN res.1 res.2).outputs ++ [n] ↔ _
      rw [List.mem_append, List.mem_singleton]
      by_cases hlt : res.2 < a.nodes.length
      · rw [hout_old res.2 hlt]
        rw [hS.out_char s res.2 (hterm_old hlt) j]
        constructor
        · rintro (⟨hj, hjs⟩ | rfl)
          · refine ⟨by simpa using Nat.lt_succ_of_lt hj, ?_⟩
            rw [getD_append_lt _ _ _ _ hj, hjs]
          · refine ⟨by simp, ?_⟩
            rw [hn, getD_append_len]
        · rintro ⟨hj, hjs⟩
          simp only [List.length_append, List.length_singleton] at hj
          by_cases hjn : j < n
          · refine Or.inl ⟨hjn, ?_⟩
            rw [getD_append_lt _ _ _ _ hjn] at hjs
            exact hjs
          · have : j = n := by omega
            exact Or.inr this
      · rw [hout_fresh res.2 (by omega)]
        simp only [List.not_mem_nil, false_or]
        constructor
        · rintro rfl
          refine ⟨by simp, ?_⟩
          rw [hn, getD_append_len]
        · rintro ⟨hj, hjs⟩
          simp only [List.length_append, List.length_singleton] at hj
          by_cases hjn : j < n
          · exfalso
            obtain ⟨w, hwlt, hw⟩ := hpat_node j hjn
            rw [getD_append_lt _ _ _ _ hjn] at hjs
            rw [hjs] at hw
            rw [hfol] at hw
            simp only [Option.some.injEq] at hw
            omega
          · omega
    · rw [hgetO v hvt]
      by_cases hvo : v < a.nodes.length
      · rw [hout_old v hvo]
        have hsvA : followN a.nodes 0 s = some v :=
          followN_ext_rev hE hT1 s 0 v h0len hsv1 hvo
        rw [hS.out_char s v hsvA j]
        constructor
        · rintro ⟨hj, hjs⟩
          refine ⟨by simpa using Nat.lt_succ_of_lt hj, ?_⟩
          rw [getD_append_lt _ _ _ _ hj, hjs]
        · rintro ⟨hj, hjs⟩
          simp only [List.length_append, List.length_singleton] at hj
          by_cases hjn : j < n
          · rw [getD_append_lt _ _ _ _ hjn] at hjs
            exact ⟨hjn, hjs⟩
          · exfalso
            have hjeq : j = n := by omega
            rw [hjeq, hn, getD_append_len] at hjs
            apply hvt
            rw [← hjs] at hsv1
            rw [hfol] at hsv1
            simp only [Option.some.injEq] at hsv1
            omega
      · rw [hout_fresh v (by omega)]
        simp only [List.not_mem_nil, false_iff]
        rintro ⟨hj, hjs⟩
        simp only [List.length_append, List.length_singleton] at hj
        by_cases hjn : j < n
        · obtain ⟨w, hwlt, hw⟩ := hpat_node j hjn
          rw [getD_append_lt _ _ _ _ hjn] at hjs
          rw [← hjs] at hsv1
          rw [hw] at hsv1
          simp only [Option.some.injEq] at hsv1
          omega
        · have hjeq : j = n := by omega
          rw [hjeq, hn, getD_append_len] at hjs
          apply hvt
          rw [← hjs] at hsv1
          rw [hfol] at hsv1
          simp only [Option.some.injEq] at hsv1
          omega
  · -- out_nodup
    intro v
    by_cases hvt : v = res.2
    · subst hvt
      rw [hgetT]
      show ((getN res.1 res.2).outputs ++ [n]).Nodup
      rw [List.nodup_append]
      refine ⟨?_, List.nodup_singleton n, ?_⟩
      · by_cases hlt : res.2 < a.nodes.length
        · rw [hout_old res.2 hlt]; exact hS.out_nodup res.2
        · rw [hout_fresh res.2 (by omega)]; exact List.nodup_nil
      · intro k hk
        simp only [List.mem_singleton]
        rintro rfl
        by_cases hlt : res.2 < a.nodes.length
        · rw [hout_old res.2 hlt] at hk
          have := (hS.out_char item res.2 (hterm_old hlt) n).1 hk
          omega
        · rw [hout_fresh res.2 (by omega)] at hk
          simp at hk
    · rw [hgetO v hvt]
      by_cases hvo : v < a.nodes.length
      · rw [hout_old v hvo]; exact hS.out_nodup v
      · rw [hout_fresh v (by omega)]; exact List.nodup_nil
  · -- fail_zero
    intro v
    by_cases hvt : v = res.2
    · subst hvt
      rw [hgetT]
      show (getN res.1 res.2).failure = 0
      by_cases hlt : res.2 < a.nodes.length
      · rw [(hE.keep res.2 hlt).1]; exact hS.fail_zero res.2
      · exact (hE.fresh res.2 (by omega)).2
    · rw [hgetO v hvt]
      by_cases hvo : v < a.nodes.length
      · rw [(hE.keep v hvo).1]; exact hS.fail_zero v
      · exact (hE.fresh v (by omega)).2
  · -- pat_tr
    intro j hj
    simp only [List.length_append, List.length_singleton] at hj
    by_cases hjn : j < n
    · obtain ⟨w, hwlt, hw⟩ := hpat_node j hjn
      refine ⟨w, ?_⟩
      rw [getD_append_lt _ _ _ _ hjn, ← followN_congr hGE]
      exact hw
    · have hjeq : j = n := by omega
      rw [hjeq, hn, getD_append_len]
      exact ⟨res.2, hfol'⟩

theorem add_items_spec {a : Automation C} (hS : TrieSpec a.nodes a.outputs)
    (items : List (List C)) :
    TrieSpec (a.add_items items).nodes (a.add_items items).outputs ∧
    (a.add_items items).outputs = a.outputs ++ items := by
  induction items generalizing a with
  | nil => exact ⟨hS, by simp [Automation.add_items]⟩
  | cons it rest ih =>
    have hstep : a.add_items (it :: rest) = (a.add_item it).add_items rest := rfl
    obtain ⟨h2, h3⟩ := ih (add_item_spec hS it)
    rw [hstep]
    refine ⟨h2, ?_⟩
    rw [h3, add_item_outputs, List.append_assoc, List.singleton_append]

theorem buildTrie_spec (items : List (List C)) :
    TrieSpec (buildTrie items).nodes items ∧
    (buildTrie items).outputs = items := by
  have hinit : TrieSpec (Automation.mk [AutomationNode.new] ([] :
      List (List C))).nodes (Automation.mk [AutomationNode.new]
      ([] : List (List C))).outputs := trieSpec_init
  obtain ⟨h1, h2⟩ := add_items_spec hinit items
  rw [List.nil_append] at h2
  have hb : buildTrie items =
      (Automation.mk [AutomationNode.new] ([] : List (List C))).add_items
        items := rfl
  rw [hb]
  rw [h2] at h1
  exact ⟨h1, h2⟩

/-! ## The failure construction: suffix-chain lemmas -/

theorem enter_child_congr {T nodes : List (AutomationNode C)}
    (hG : GotoEq T nodes) (w : Nat) (c : C) :
    (getN nodes w).enter_child c = (getN T w).enter_child c := by
  unfold AutomationNode.enter_child
  rw [hG.2 w]

theorem contains_congr {T nodes : List (AutomationNode C)}
    (hG : GotoEq T nodes) (w : Nat) (c : C) :
    (getN nodes w).contains c = (getN T w).contains c := by
  unfold AutomationNode.contains
  rw [hG.2 w]

theorem lsp_snoc {T : List (AutomationNode C)} (hT : TrieInv T) {s : List C}
    (hs : s ≠ []) (c : C) :
    lspOf T (s ++ [c]) = lssOf T (lspOf T s ++ [c]) := by
  have hm_suffix : lssOf T (lspOf T s ++ [c]) <:+ s ++ [c] :=
    (lssOf_suffix T (lspOf T s ++ [c])).trans
      (suffix_snoc_snoc c (lspOf_suffix T s))
  have hm_tr : TrPath T (lssOf T (lspOf T s ++ [c])) :=
    lssOf_tr T (lspOf T s ++ [c])
  have hm_max : ∀ r, r <:+ s ++ [c] → r ≠ s ++ [c] → TrPath T r →
      r <:+ lssOf T (lspOf T s ++ [c]) := by
    intro r hr hrne hrtr
    rcases List.suffix_concat_iff.1 hr with rfl | ⟨r0, rfl, hr0⟩
    · exact List.nil_suffix
    · have hr0ne : r0 ≠ s := fun h => hrne (by rw [h])
      have hr0t : r0 <:+ lspOf T s :=
        lspOf_max T hr0 hr0ne (trPath_of_snoc hrtr)
      exact lssOf_max T (suffix_snoc_snoc c hr0t) hrtr
  have h1 : lspOf T (s ++ [c]) <:+ lssOf T (lspOf T s ++ [c]) := by
    apply hm_max
    · exact lspOf_suffix T _
    · intro h
      have := lspOf_length_lt T (s := s ++ [c]) (by simp)
      rw [h] at this
      omega
    · exact lspOf_tr T _
  have h2 : lssOf T (lspOf T s ++ [c]) <:+ lspOf T (s ++ [c]) := by
    apply lspOf_max T hm_suffix ?_ hm_tr
    intro h
    have hlen := (lssOf_suffix T (lspOf T s ++ [c])).length_le
    have hlt : (lspOf T s).length < s.length := lspOf_length_lt T hs
    rw [h] at hlen
    simp only [List.length_append, List.length_singleton] at hlen
    omega
  exact suffix_antisymm h1 h2

theorem lss_snoc_step {T : List (AutomationNode C)} (hT : TrieInv T)
    {t : List C} {x : Nat} {c : C} (hx : followN T 0 t = some x)
    (hc : ¬ (getN T x).contains c = true) :
    lssOf T (t ++ [c]) = lssOf T (lspOf T t ++ [c]) := by
  have hnot : ¬ TrPath T (t ++ [c]) := by
    rw [trPath_snoc_iff_contains hx]
    exact hc
  have hmax2 : ∀ r, r <:+ t ++ [c] → TrPath T r →
      r <:+ lssOf T (lspOf T t ++ [c]) := by
    intro r hr hrtr
    rcases List.suffix_concat_iff.1 hr with rfl | ⟨r0, rfl, hr0⟩
    · exact List.nil_suffix
    · have hr0ne : r0 ≠ t := by rintro rfl; exact hnot hrtr
      have hr0t : r0 <:+ lspOf T t :=
        lspOf_max T hr0 hr0ne (trPath_of_snoc hrtr)
      exact lssOf_max T (suffix_snoc_snoc c hr0t) hrtr
  have h1 : lssOf T (t ++ [c]) <:+ lssOf T (lspOf T t ++ [c]) :=
    hmax2 _ (lssOf_suffix T _) (lssOf_tr T _)
  have h2 : lssOf T (lspOf T t ++ [c]) <:+ lssOf T (t ++ [c]) :=
    lssOf_max T ((lssOf_suffix T _).trans
      (suffix_snoc_snoc c (lspOf_suffix T t))) (lssOf_tr T _)
  exact suffix_antisymm h1 h2

theorem walk_exit_eq {T : List (AutomationNode C)} (hT : TrieInv T)
    {t : List C} {x : Nat} {c : C} (hx : followN T 0 t = some x)
    (hexit : x = 0 ∨ (getN T x).contains c = true) :
    ((getN T x).enter_child c).getD 0 = nodeOfD T (lssOf T (t ++ [c])) := by
  cases he : (getN T x).enter_child c with
  | some w =>
    have hw : followN T 0 (t ++ [c]) = some w := followN_snoc_some hx he
    rw [lssOf_of_tr ⟨w, hw⟩]
    simp [nodeOfD, hw]
  | none =>
    rcases hexit with rfl | hcont
    · have ht : t = [] := followN_zero_of_zero hT hx
      subst ht
      have hnone : followN T 0 ([] ++ [c]) = none := by
        rw [followN_snoc, hx, Option.some_bind, he]
      simp only [List.nil_append] at hnone
      have hlss : lssOf T [c] = [] := by
        simp only [lssOf]
        rw [if_neg]
        simp [hnone]
      simp only [List.nil_append]
      rw [hlss]
      rfl
    · exfalso
      rw [AutomationNode.contains] at hcont
      rw [AutomationNode.enter_child] at he
      rw [he] at hcont
      simp at hcont

theorem lpsLoop_spec {T nodes : List (AutomationNode C)} (hT : TrieInv T)
    (hG : GotoEq T nodes) (c : C) (D : Nat)
    (hFail : ∀ x t, followN T 0 t = some x → t.length ≤ D →
      (getN nodes x).failure = nodeOfD T (lspOf T t)) :
    ∀ fuel s u, 1 ≤ s.length → s.length ≤ D → s.length ≤ fuel →
      followN T 0 s = some u →
      ∃ w, lpsLoop nodes c fuel u = some w ∧
        ((getN nodes w).enter_child c).getD 0 =
          nodeOfD T (lspOf T (s ++ [c])) := by
  intro fuel
  induction fuel with
  | zero =>
    intro s u h1 _ h3 _
    omega
  | succ f ih =>
    intro s u h1 hD hf hu
    have hs_ne : s ≠ [] := by rintro rfl; simp at h1
    have hfail_u : (getN nodes u).failure = nodeOfD T (lspOf T s) :=
      hFail u s hu (by omega)
    have htr : TrPath T (lspOf T s) := lspOf_tr T s
    have hxt : followN T 0 (lspOf T s) = some (nodeOfD T (lspOf T s)) :=
      followN_nodeOfD htr
    have hlt : (lspOf T s).length < s.length := lspOf_length_lt T hs_ne
    simp only [lpsLoop]
    rw [hfail_u]
    by_cases hbr : nodeOfD T (lspOf T s) = 0 ∨
        (getN nodes (nodeOfD T (lspOf T s))).contains c = true
    · rw [if_pos hbr]
      refine ⟨nodeOfD T (lspOf T s), rfl, ?_⟩
      rw [enter_child_congr hG, lsp_snoc hT hs_ne c]
      apply walk_exit_eq hT hxt
      rcases hbr with h | h
      · exact Or.inl h
      · rw [contains_congr hG] at h
        exact Or.inr h
    · rw [if_neg hbr]
      push_neg at hbr
      obtain ⟨hne0, hnc⟩ := hbr
      have ht_ne : lspOf T s ≠ [] := by
        rintro hteq
        apply hne0
        rw [hteq]
        rfl
      obtain ⟨w, hw, hconc⟩ := ih (lspOf T s) (nodeOfD T (lspOf T s))
        (by cases h : lspOf T s with
            | nil => exact absurd h ht_ne
            | cons a l => simp) (by omega) (by omega) hxt
      refine ⟨w, hw, ?_⟩
      rw [hconc]
      have e1 : lspOf T (s ++ [c]) = lssOf T (lspOf T s ++ [c]) :=
        lsp_snoc hT hs_ne c
      have e2 : lspOf T (lspOf T s ++ [c]) =
          lssOf T (lspOf T (lspOf T s) ++ [c]) := lsp_snoc hT ht_ne c
      have e3 : lssOf T (lspOf T s ++ [c]) =
          lssOf T (lspOf T (lspOf T s) ++ [c]) := by
        apply lss_snoc_step hT hxt
        rw [contains_congr hG] at hnc
        exact hnc
      rw [e1, e2, e3]

theorem failWalk_spec {T nodes : List (AutomationNode C)} (hT : TrieInv T)
    (hG : GotoEq T nodes) (c : C) (D : Nat)
    (hFail : ∀ x t, followN T 0 t = some x → t.length ≤ D →
      (getN nodes x).failure = nodeOfD T (lspOf T t)) :
    ∀ fuel m x, followN T 0 m = some x → m.length ≤ D →
      m.length + 1 ≤ fuel →
      ∃ w, failWalk nodes c fuel x = some w ∧
        ((getN nodes w).enter_child c).getD 0 =
          nodeOfD T (lssOf T (m ++ [c])) := by
  intro fuel
  induction fuel with
  | zero =>
    intro m x _ _ h3
    omega
  | succ f ih =>
    intro m x hm hD hf
    simp only [failWalk]
    by_cases hcond : x ≠ 0 ∧ ¬ (getN nodes x).contains c = true
    · rw [if_pos hcond]
      obtain ⟨hx0, hnc⟩ := hcond
      have hm_ne : m ≠ [] := by
        rintro rfl
        simp only [followN, Option.some.injEq] at hm
        exact hx0 hm.symm
      have hfail_x : (getN nodes x).failure = nodeOfD T (lspOf T m) :=
        hFail x m hm (by omega)
      have htr : TrPath T (lspOf T m) := lspOf_tr T m
      have hxt : followN T 0 (lspOf T m) = some (nodeOfD T (lspOf T m)) :=
        followN_nodeOfD htr
      have hlt : (lspOf T m).length < m.length := lspOf_length_lt T hm_ne
      rw [hfail_x]
      obtain ⟨w, hw, hconc⟩ := ih (lspOf T m) (nodeOfD T (lspOf T m)) hxt
        (by omega) (by omega)
      refine ⟨w, hw, ?_⟩
      rw [hconc]
      have e3 : lssOf T (m ++ [c]) = lssOf T (lspOf T m ++ [c]) := by
        apply lss_snoc_step hT hm
        rw [contains_congr hG] at hnc
        exact hnc
      rw [e3]
    · rw [if_neg hcond]
      refine ⟨x, rfl, ?_⟩
      rw [enter_child_congr hG]
      apply walk_exit_eq hT hm
      push_neg at hcond
      by_cases hx0 : x = 0
      · exact Or.inl hx0
      · right
        have h2 := hcond hx0
        simp only [Decidable.not_not] at h2
        rw [contains_congr hG] at h2
        exact h2

theorem lspOf_singleton (T : List (AutomationNode C)) (c : C) :
    lspOf T [c] = [] := by
  show (if (followN T 0 ([] : List C)).isSome then ([] : List C)
    else lspOf T []) = []
  split <;> rfl

theorem processEdge_spec {T nodes : List (AutomationNode C)}
    {pats : List (List C)} (hS : TrieSpec T pats) (hG : GotoEq T nodes)
    {u v : Nat} {c : C} {s : List C}
    (hu : followN T 0 s = some u)
    (hedge : (c, v) ∈ (getN T u).goto)
    (hFin : ∀ x t, followN T 0 t = some x → t.length ≤ s.length →
      (getN nodes x).failure = nodeOfD T (lspOf T t) ∧
      (getN nodes x).outputs = closedOut T t.length t)
    (hvP : getN nodes v = getN T v) :
    ∃ nodes1, processEdge nodes u c v = some nodes1 ∧
      nodes1.length = nodes.length ∧
      (∀ w, w ≠ v → getN nodes1 w = getN nodes w) ∧
      getN nodes1 v = ⟨(getN T v).goto,
        nodeOfD T (lspOf T (s ++ [c])),
        closedOut T (s ++ [c]).length (s ++ [c])⟩ := by
  have hT : TrieInv T := hS.inv
  have he : (getN T u).enter_child c = some v :=
    gotoLookup_of_mem (hT.keys_nodup u) hedge
  have hvs : followN T 0 (s ++ [c]) = some v := followN_snoc_some hu he
  have hvlt : v < T.length := hT.edge_lt u (c, v) hedge
  have hlenTn : T.length = nodes.length := hG.1
  have hsc_ne : s ++ [c] ≠ [] := by simp
  have hfvtr : TrPath T (lspOf T (s ++ [c])) := lspOf_tr T (s ++ [c])
  have hfv : followN T 0 (lspOf T (s ++ [c])) =
      some (nodeOfD T (lspOf T (s ++ [c]))) := followN_nodeOfD hfvtr
  have hlsplen : (lspOf T (s ++ [c])).length < (s ++ [c]).length :=
    lspOf_length_lt T hsc_ne
  have holps : (if u ≠ 0 then
      (lpsLoop nodes c nodes.length u).map
        (fun w => ((getN nodes w).enter_child c).getD 0)
      else some 0) = some (nodeOfD T (lspOf T (s ++ [c]))) := by
    by_cases hu0 : u = 0
    · subst hu0
      rw [if_neg (by simp)]
      have hse : s = [] := followN_zero_of_zero hT hu
      subst hse
      rw [List.nil_append, lspOf_singleton]
      rfl
    · rw [if_pos hu0]
      have hs_ne : s ≠ [] := by
        rintro rfl
        simp only [followN, Option.some.injEq] at hu
        exact hu0 hu.symm
      have hslen : 1 ≤ s.length := by
        cases s with
        | nil => exact absurd rfl hs_ne
        | cons a l => simp
      have hsu : s.length ≤ u := by
        have := followN_le hT hu
        omega
      have hult : u < T.length := followN_lt hT hT.nonempty hu
      obtain ⟨w, hw, hconc⟩ := lpsLoop_spec hT hG c s.length
        (fun x t hx ht => (hFin x t hx ht).1) nodes.length s u hslen
        (Nat.le_refl _) (by omega) hu
      rw [hw]
      simp only [Option.map_some']
      rw [hconc]
  have hne : v ≠ nodeOfD T (lspOf T (s ++ [c])) := by
    intro heq
    have := followN_inj hT v (s ++ [c]) (lspOf T (s ++ [c])) hvs
      (heq ▸ hfv)
    rw [← this] at hlsplen
    omega
  have hout_fv : (getN nodes (nodeOfD T (lspOf T (s ++ [c])))).outputs =
      closedOut T (lspOf T (s ++ [c])).length (lspOf T (s ++ [c])) := by
    refine (hFin _ _ hfv ?_).2
    simp only [List.length_append, List.length_singleton] at hlsplen
    omega
  refine ⟨modifyIdx nodes v (fun nd =>
    ⟨nd.goto, nodeOfD T (lspOf T (s ++ [c])),
     nd.outputs ++ ((getN nodes (nodeOfD T (lspOf T (s ++ [c])))).outputs.filter
       (fun o => decide (o ∉ nd.outputs)))⟩), ?_, ?_, ?_, ?_⟩
  · show processEdge nodes u c v = _
    unfold processEdge
    rw [holps]
    dsimp only
    rw [if_neg hne]
  · exact modifyIdx_length _ _ _
  · intro w hw
    exact getN_modifyIdx_ne _ _ _ _ hw
  · rw [getN_modifyIdx_self _ _ _ (by omega)]
    rw [hvP, hout_fv]
    have hnodeofd : nodeOfD T (s ++ [c]) = v := by
      simp [nodeOfD, hvs]
    have hunfold := closedOut_unfold T hsc_ne
    rw [hnodeofd] at hunfold
    rw [hunfold]

theorem processEdges_spec {T : List (AutomationNode C)}
    {pats : List (List C)} (hS : TrieSpec T pats) {u : Nat} {s : List C}
    (hu : followN T 0 s = some u) :
    ∀ (gs : List (C × Nat)) (nodes : List (AutomationNode C)),
      GotoEq T nodes →
      (∀ cv ∈ gs, cv ∈ (getN T u).goto) →
      (gs.map Prod.snd).Nodup →
      (∀ cv ∈ gs, getN nodes cv.2 = getN T cv.2) →
      (∀ x t, followN T 0 t = some x → t.length ≤ s.length →
        (getN nodes x).failure = nodeOfD T (lspOf T t) ∧
        (getN nodes x).outputs = closedOut T t.length t) →
      ∃ nodes1, processEdges nodes u gs = some nodes1 ∧
        GotoEq T nodes1 ∧
        (∀ w, w ∉ gs.map Prod.snd → getN nodes1 w = getN nodes w) ∧
        (∀ cv ∈ gs, getN nodes1 cv.2 = ⟨(getN T cv.2).goto,
          nodeOfD T (lspOf T (s ++ [cv.1])),
          closedOut T (s ++ [cv.1]).length (s ++ [cv.1])⟩) := by
  intro gs
  induction gs with
  | nil =>
    intro nodes hG _ _ _ _
    exact ⟨nodes, rfl, hG, fun w _ => rfl, by simp⟩
  | cons cv rest ih =>
    obtain ⟨c, v⟩ := cv
    intro nodes hG hedges hnd hP hFin
    have hT : TrieInv T := hS.inv
    have hedge : (c, v) ∈ (getN T u).goto := hedges (c, v) (List.mem_cons_self _ _)
    have hvP : getN nodes v = getN T v := hP (c, v) (List.mem_cons_self _ _)
    obtain ⟨nodes1, hpe, hlen1, hother1, hv1⟩ :=
      processEdge_spec hS hG hu hedge hFin hvP
    have hvs : followN T 0 (s ++ [c]) = some v :=
      followN_snoc_some hu (gotoLookup_of_mem (hT.keys_nodup u) hedge)
    have hvnotrest : v ∉ rest.map Prod.snd := by
      have := hnd
      simp only [List.map_cons, List.nodup_cons] at this
      exact this.1
    have hG1 : GotoEq T nodes1 := by
      refine ⟨hG.1.trans hlen1.symm, ?_⟩
      intro i
      by_cases hi : i = v
      · subst hi
        rw [hv1]
      · rw [hother1 i hi, hG.2 i]
    have hP1 : ∀ cv ∈ rest, getN nodes1 cv.2 = getN T cv.2 := by
      intro cv hcv
      have hne : cv.2 ≠ v := by
        intro h
        exact hvnotrest (h ▸ List.mem_map.2 ⟨cv, hcv, rfl⟩)
      rw [hother1 cv.2 hne]
      exact hP cv (List.mem_cons_of_mem _ hcv)
    have hFin1 : ∀ x t, followN T 0 t = some x → t.length ≤ s.length →
        (getN nodes1 x).failure = nodeOfD T (lspOf T t) ∧
        (getN nodes1 x).outputs = closedOut T t.length t := by
      intro x t hx ht
      by_cases hxv : x = v
      · subst hxv
        exfalso
        have := followN_inj hT x t (s ++ [c]) hx hvs
        rw [this] at ht
        simp at ht
      · rw [hother1 x hxv]
        exact hFin x t hx ht
    obtain ⟨nodesF, hpes, hGF, hotherF, hvF⟩ := ih nodes1 hG1
      (fun cv hcv => hedges cv (List.mem_cons_of_mem _ hcv))
      (by simp only [List.map_cons, List.nodup_cons] at hnd; exact hnd.2)
      hP1 hFin1
    refine ⟨nodesF, ?_, hGF, ?_, ?_⟩
    · show processEdges nodes u ((c, v) :: rest) = some nodesF
      unfold processEdges
      rw [hpe]
      exact hpes
    · intro w hw
      simp only [List.map_cons, List.mem_cons] at hw
      push_neg at hw
      rw [hotherF w hw.2, hother1 w hw.1]
    · intro cv2 hcv2
      rcases List.mem_cons.1 hcv2 with heq | hcv'
      · subst heq
        rw [hotherF (c, v).2 hvnotrest, hv1]
      · exact hvF cv2 hcv'

/-! ## The BFS invariant of the failure construction -/

/-- A node is final: its failure link and outputs have the values the
finished automaton must carry. -/
def FinalNode (T nodes : List (AutomationNode C)) (v : Nat) : Prop :=
  ∀ s, followN T 0 s = some v →
    (getN nodes v).failure = nodeOfD T (lspOf T s) ∧
    (getN nodes v).outputs = closedOut T s.length s

theorem FinalNode_stable {T nodes nodes' : List (AutomationNode C)} {v : Nat}
    (h : getN nodes' v = getN nodes v) (hF : FinalNode T nodes v) :
    FinalNode T nodes' v := by
  intro s hs
  rw [h]
  exact hF s hs

theorem depth_unique {T : List (AutomationNode C)} (hT : TrieInv T)
    {v : Nat} {s1 s2 : List C} (h1 : followN T 0 s1 = some v)
    (h2 : followN T 0 s2 = some v) : s1.length = s2.length := by
  rw [followN_inj hT v s1 s2 h1 h2]

theorem nodup_lt_length_le {l : List Nat} {n : Nat} (hnd : l.Nodup)
    (hlt : ∀ x ∈ l, x < n) : l.length ≤ n := by
  have h1 : l.toFinset.card = l.length := List.toFinset_card_of_nodup hnd
  have h2 : l.toFinset ⊆ Finset.range n := by
    intro x hx
    rw [Finset.mem_range]
    exact hlt x (List.mem_toFinset.1 hx)
  have h3 := Finset.card_le_card h2
  rw [h1, Finset.card_range] at h3
  exact h3

/-- The invariant of the BFS loop: `disc` is the list of discovered
nodes (finalized), `queue` the discovered but unprocessed ones, split
into a frontier segment `qa` at depth `d` and a segment `qb` at depth
`d + 1`. -/
structure BfsInv (T nodes : List (AutomationNode C)) (queue disc : List Nat)
    (d : Nat) (qa qb : List Nat) : Prop where
  geq : GotoEq T nodes
  disc_nodup : disc.Nodup
  disc_lt : ∀ v ∈ disc, v < T.length
  root_disc : 0 ∈ disc
  final : ∀ v ∈ disc, FinalNode T nodes v
  pristine : ∀ v, v < T.length → v ∉ disc → getN nodes v = getN T v
  queue_nodup : queue.Nodup
  queue_disc : ∀ v ∈ queue, v ∈ disc
  children_disc : ∀ u ∈ disc, u ∉ queue → ∀ cv ∈ (getN T u).goto, cv.2 ∈ disc
  disc_src : ∀ v ∈ disc, v ≠ 0 →
    ∃ u c, u ∈ disc ∧ u ∉ queue ∧ (c, v) ∈ (getN T u).goto
  qsplit : queue = qa ++ qb
  qa_depth : ∀ v ∈ qa, ∃ s, followN T 0 s = some v ∧ s.length = d
  qb_depth : ∀ v ∈ qb, ∃ s, followN T 0 s = some v ∧ s.length = d + 1
  below_done : ∀ v s, followN T 0 s = some v → s.length < d →
    v ∈ disc ∧ v ∉ queue
  at_disc : ∀ v s, followN T 0 s = some v → s.length = d → v ∈ disc
  disc_depth : ∀ v ∈ disc, ∃ s, followN T 0 s = some v ∧ s.length ≤ d + 1

theorem bfsInv_shift {T nodes : List (AutomationNode C)}
    {queue disc : List Nat} {d : Nat} {qb : List Nat} (hT : TrieInv T)
    (hI : BfsInv T nodes queue disc d [] qb) :
    BfsInv T nodes queue disc (d+1) qb [] := by
  have hq : queue = qb := by
    have := hI.qsplit
    simpa using this
  refine ⟨hI.geq, hI.disc_nodup, hI.disc_lt, hI.root_disc, hI.final,
    hI.pristine, hI.queue_nodup, hI.queue_disc, hI.children_disc,
    hI.disc_src, by rw [List.append_nil]; exact hq, hI.qb_depth,
    by simp, ?_, ?_, ?_⟩
  · -- below_done at depth < d + 1
    intro v s hs hlen
    by_cases hd : s.length < d
    · exact hI.below_done v s hs hd
    · have hdd : s.length = d := by omega
      refine ⟨hI.at_disc v s hs hdd, ?_⟩
      intro hvq
      rw [hq] at hvq
      obtain ⟨s', hs', hs'len⟩ := hI.qb_depth v hvq
      have := depth_unique hT hs hs'
      omega
  · -- at_disc at depth d + 1
    intro v s hs hlen
    rcases List.eq_nil_or_concat' s with rfl | ⟨s0, c, rfl⟩
    · simp at hlen
    · rw [followN_snoc] at hs
      cases hu : followN T 0 s0 with
      | none => rw [hu] at hs; simp at hs
      | some u' =>
        rw [hu, Option.some_bind] at hs
        have hs0len : s0.length = d := by
          simp only [List.length_append, List.length_singleton] at hlen
          omega
        have hu'disc : u' ∈ disc := hI.at_disc u' s0 hu hs0len
        have hu'nq : u' ∉ queue := by
          intro hvq
          rw [hq] at hvq
          obtain ⟨s', hs', hs'len⟩ := hI.qb_depth u' hvq
          have := depth_unique hT hu hs'
          omega
        exact hI.children_disc u' hu'disc hu'nq (c, v) (gotoLookup_mem hs)
  · intro v hv
    obtain ⟨s, hs, hslen⟩ := hI.disc_depth v hv
    exact ⟨s, hs, by omega⟩

theorem bfs_done_all {T nodes : List (AutomationNode C)}
    {disc : List Nat} {d : Nat} {qa qb : List Nat} (hT : TrieInv T)
    (hI : BfsInv T nodes [] disc d qa qb) :
    ∀ s v, followN T 0 s = some v → v ∈ disc := by
  intro s
  induction s using List.reverseRecOn with
  | nil =>
    intro v h
    simp only [followN, Option.some.injEq] at h
    rw [← h]
    exact hI.root_disc
  | append_singleton s0 c ih =>
    intro v h
    rw [followN_snoc] at h
    cases hu : followN T 0 s0 with
    | none => rw [hu] at h; simp at h
    | some u =>
      rw [hu, Option.some_bind] at h
      exact hI.children_disc u (ih u hu) (by simp) (c, v) (gotoLookup_mem h)

theorem bfsLoop_master {T : List (AutomationNode C)} {pats : List (List C)}
    (hS : TrieSpec T pats) :
    ∀ fuel nodes queue disc d qa qb,
      BfsInv T nodes queue disc d qa qb →
      queue.length + (T.length - disc.length) ≤ fuel →
      ∃ nodesF, bfsLoop fuel nodes queue = some nodesF ∧
        GotoEq T nodesF ∧
        (∀ v s, followN T 0 s = some v → FinalNode T nodesF v) := by
  intro fuel
  induction fuel with
  | zero =>
    intro nodes queue disc d qa qb hI hle
    cases queue with
    | nil =>
      refine ⟨nodes, rfl, hI.geq, ?_⟩
      intro v s hs
      exact hI.final v (bfs_done_all hS.inv hI s v hs)
    | cons u rest =>
      exfalso
      simp only [List.length_cons] at hle
      omega
  | succ f ih =>
    intro nodes queue disc d qa qb hI hle
    cases queue with
    | nil =>
      refine ⟨nodes, rfl, hI.geq, ?_⟩
      intro v s hs
      exact hI.final v (bfs_done_all hS.inv hI s v hs)
    | cons u rest =>
      have hT := hS.inv
      obtain ⟨d1, qa1, qb1, hI1, hqa1⟩ :
          ∃ d1 qa1 qb1, BfsInv T nodes (u :: rest) disc d1 qa1 qb1 ∧
            qa1 ≠ [] := by
        rcases hqa : qa with _ | ⟨a0, qa'⟩
        · refine ⟨d + 1, qb, [], bfsInv_shift hT (hqa ▸ hI), ?_⟩
          have hq := hI.qsplit
          rw [hqa] at hq
          simp only [List.nil_append] at hq
          rw [← hq]
          simp
        · exact ⟨d, a0 :: qa', qb, hqa ▸ hI, by simp⟩
      obtain ⟨qa', hqa1eq, hrest⟩ :
          ∃ qa', qa1 = u :: qa' ∧ rest = qa' ++ qb1 := by
        cases qa1 with
        | nil => exact absurd rfl hqa1
        | cons a0 qa' =>
          have hq := hI1.qsplit
          simp only [List.cons_append, List.cons.injEq] at hq
          exact ⟨qa', by rw [hq.1], hq.2⟩
      have hG := hI1.geq
      have hudisc : u ∈ disc := hI1.queue_disc u (List.mem_cons_self _ _)
      obtain ⟨su, hsu, hsulen⟩ := hI1.qa_depth u
        (by rw [hqa1eq]; exact List.mem_cons_self _ _)
      have hgotoU : (getN nodes u).goto = (getN T u).goto := (hG.2 u).symm
      have hunotrest : u ∉ rest := by
        have := hI1.queue_nodup
        simp only [List.nodup_cons] at this
        exact this.1
      have hFin : ∀ x t, followN T 0 t = some x → t.length ≤ su.length →
          (getN nodes x).failure = nodeOfD T (lspOf T t) ∧
          (getN nodes x).outputs = closedOut T t.length t := by
        intro x t hx ht
        have hxdisc : x ∈ disc := by
          rcases Nat.lt_or_ge t.length su.length with hlt | hge
          · exact (hI1.below_done x t hx (by omega)).1
          · exact hI1.at_disc x t hx (by omega)
        exact hI1.final x hxdisc t hx
      have hchild_fresh : ∀ cv ∈ (getN T u).goto, cv.2 ∉ disc := by
        intro cv hcv hmem
        have hne0 : cv.2 ≠ 0 := by
          have := hT.edge_gt u cv hcv
          omega
        obtain ⟨u', c', hu'd, hu'q, hedge'⟩ := hI1.disc_src cv.2 hmem hne0
        have hcv' : (cv.1, cv.2) ∈ (getN T u).goto := by simpa using hcv
        obtain ⟨hueq, -⟩ := hT.parent_uniq u' u c' cv.1 cv.2 hedge' hcv'
        rw [hueq] at hu'q
        exact hu'q (List.mem_cons_self _ _)
      have hchild_pristine : ∀ cv ∈ (getN T u).goto,
          getN nodes cv.2 = getN T cv.2 :=
        fun cv hcv => hI1.pristine cv.2 (hT.edge_lt u cv hcv)
          (hchild_fresh cv hcv)
      have hts_nodup : (((getN T u).goto).map Prod.snd).Nodup := by
        have hpairs : (getN T u).goto.Nodup := (hT.keys_nodup u).of_map
        refine List.Nodup.map_on ?_ hpairs
        intro x hx y hy hxy
        have hx' : (x.1, x.2) ∈ (getN T u).goto := by simpa using hx
        have hy' : (y.1, y.2) ∈ (getN T u).goto := by simpa using hy
        rw [hxy] at hx'
        obtain ⟨-, hc⟩ := hT.parent_uniq u u x.1 y.1 y.2 hx' hy'
        have hxeta : x = (x.1, x.2) := rfl
        rw [hxeta, hxy, hc]
      obtain ⟨nodes1, hpes, hG1, hother1, hvals1⟩ :=
        processEdges_spec hS hsu (getN T u).goto nodes hG (fun cv h => h)
          hts_nodup hchild_pristine hFin
      set ts := ((getN T u).goto).map Prod.snd with hts
      have hts_lt : ∀ v ∈ ts, v < T.length := by
        intro v hv
        obtain ⟨cv, hcv, rfl⟩ := List.mem_map.1 hv
        exact hT.edge_lt u cv hcv
      have hts_fresh : ∀ v ∈ ts, v ∉ disc := by
        intro v hv
        obtain ⟨cv, hcv, rfl⟩ := List.mem_map.1 hv
        exact hchild_fresh cv hcv
      have hts_path : ∀ v ∈ ts, ∃ c, followN T 0 (su ++ [c]) = some v ∧
          (su ++ [c]).length = d1 + 1 := by
        intro v hv
        obtain ⟨cv, hcv, rfl⟩ := List.mem_map.1 hv
        have hcv' : (cv.1, cv.2) ∈ (getN T u).goto := by simpa using hcv
        refine ⟨cv.1, ?_, by simp [hsulen]⟩
        exact followN_snoc_some hsu
          (gotoLookup_of_mem (hT.keys_nodup u) hcv')
      have hts_final : ∀ v ∈ ts, FinalNode T nodes1 v := by
        intro v hv
        obtain ⟨cv, hcv, rfl⟩ := List.mem_map.1 hv
        have hcv' : (cv.1, cv.2) ∈ (getN T u).goto := by simpa using hcv
        have hvpath : followN T 0 (su ++ [cv.1]) = some cv.2 :=
          followN_snoc_some hsu
            (gotoLookup_of_mem (hT.keys_nodup u) hcv')
        have hval := hvals1 cv hcv
        intro s' hs'
        have hseq : s' = su ++ [cv.1] :=
          followN_inj hT cv.2 s' (su ++ [cv.1]) hs' hvpath
        rw [hseq, hval]
        exact ⟨rfl, rfl⟩
      have hdisc'_nodup : (disc ++ ts).Nodup := by
        rw [List.nodup_append]
        exact ⟨hI1.disc_nodup, hts_nodup,
          fun x hx hxts => hts_fresh x hxts hx⟩
      have hrest_disc : ∀ v ∈ rest, v ∈ disc :=
        fun v hv => hI1.queue_disc v (List.mem_cons_of_mem _ hv)
      have hqueue'_nodup : (rest ++ ts).Nodup := by
        rw [List.nodup_append]
        refine ⟨?_, hts_nodup, ?_⟩
        · have := hI1.queue_nodup
          simp only [List.nodup_cons] at this
          exact this.2
        · intro x hx hxts
          exact hts_fresh x hxts (hrest_disc x hx)
      have hI2 : BfsInv T nodes1 (rest ++ ts) (disc ++ ts) d1 qa'
          (qb1 ++ ts) := by
        refine ⟨hG1, hdisc'_nodup, ?_, ?_, ?_, ?_, hqueue'_nodup, ?_, ?_,
          ?_, ?_, ?_, ?_, ?_, ?_, ?_⟩
        · intro v hv
          rcases List.mem_append.1 hv with h | h
          · exact hI1.disc_lt v h
          · exact hts_lt v h
        · exact List.mem_append_left _ hI1.root_disc
        · intro v hv
          rcases List.mem_append.1 hv with h | h
          · exact FinalNode_stable
              (hother1 v (fun hvts => hts_fresh v hvts h))
              (hI1.final v h)
          · exact hts_final v h
        · intro v hvlt hv
          simp only [List.mem_append] at hv
          push_neg at hv
          rw [hother1 v hv.2]
          exact hI1.pristine v hvlt hv.1
        · intro v hv
          rcases List.mem_append.1 hv with h | h
          · exact List.mem_append_left _ (hrest_disc v h)
          · exact List.mem_append_right _ h
        · intro w hw hwq cv hcv
          rcases List.mem_append.1 hw with hwd | hwt
          · by_cases hwu : w = u
            · subst hwu
              refine List.mem_append_right _ ?_
              exact List.mem_map.2 ⟨cv, hcv, rfl⟩
            · have hwnotq : w ∉ u :: rest := by
                intro hmem
                rcases List.mem_cons.1 hmem with h | h
                · exact hwu h
                · exact hwq (List.mem_append_left _ h)
              exact List.mem_append_left _
                (hI1.children_disc w hwd hwnotq cv hcv)
          · exact absurd (List.mem_append_right rest hwt) hwq
        · intro v hv hv0
          rcases List.mem_append.1 hv with h | h
          · obtain ⟨u', c', hd', hq', he'⟩ := hI1.disc_src v h hv0
            refine ⟨u', c', List.mem_append_left _ hd', ?_, he'⟩
            intro hmem
            rcases List.mem_append.1 hmem with h2 | h2
            · exact hq' (List.mem_cons_of_mem _ h2)
            · exact hts_fresh u' h2 hd'
          · obtain ⟨cv, hcv, rfl⟩ := List.mem_map.1 h
            refine ⟨u, cv.1, List.mem_append_left _ hudisc, ?_, by simpa using hcv⟩
            intro hmem
            rcases List.mem_append.1 hmem with h2 | h2
            · exact hunotrest h2
            · exact hts_fresh u h2 hudisc
        · rw [hrest, List.append_assoc]
        · intro v hv
          exact hI1.qa_depth v (by rw [hqa1eq]; exact List.mem_cons_of_mem _ hv)
        · intro v hv
          rcases List.mem_append.1 hv with h | h
          · exact hI1.qb_depth v h
          · obtain ⟨c, hc, hclen⟩ := hts_path v h
            exact ⟨su ++ [c], hc, hclen⟩
        · intro v s hs hlen
          obtain ⟨hd', hq'⟩ := hI1.below_done v s hs hlen
          refine ⟨List.mem_append_left _ hd', ?_⟩
          intro hmem
          rcases List.mem_append.1 hmem with h2 | h2
          · exact hq' (List.mem_cons_of_mem _ h2)
          · exact hts_fresh v h2 hd'
        · intro v s hs hlen
          exact List.mem_append_left _ (hI1.at_disc v s hs hlen)
        · intro v hv
          rcases List.mem_append.1 hv with h | h
          · exact hI1.disc_depth v h
          · obtain ⟨c, hc, hclen⟩ := hts_path v h
            exact ⟨su ++ [c], hc, by omega⟩
      have hcard : disc.length + ts.length ≤ T.length := by
        have := nodup_lt_length_le hdisc'_nodup (by
          intro x hx
          rcases List.mem_append.1 hx with h | h
          · exact hI1.disc_lt x h
          · exact hts_lt x h)
        simpa using this
      have hfuel2 : (rest ++ ts).length +
          (T.length - (disc ++ ts).length) ≤ f := by
        simp only [List.length_append, List.length_cons] at hle ⊢
        omega
      obtain ⟨nodesF, hloop, hGF, hfinF⟩ :=
        ih nodes1 (rest ++ ts) (disc ++ ts) d1 qa' (qb1 ++ ts) hI2 hfuel2
      refine ⟨nodesF, ?_, hGF, hfinF⟩
      show bfsLoop (f+1) nodes (u :: rest) = some nodesF
      have hred : bfsLoop (f+1) nodes (u :: rest) =
          match processEdges nodes u (getN nodes u).goto with
          | none => none
          | some nodes2 =>
            bfsLoop f nodes2 (rest ++ ((getN nodes u).goto).map Prod.snd) :=
        rfl
      rw [hred, hgotoU, hpes]
      exact hloop

theorem bfsInv_init {T : List (AutomationNode C)} {pats : List (List C)}
    (hS : TrieSpec T pats) : BfsInv T T [0] [0] 0 [0] [] := by
  have hfin0 : FinalNode T T 0 := by
    intro s hs
    have hse : s = [] := followN_zero_of_zero hS.inv hs
    subst hse
    refine ⟨?_, rfl⟩
    rw [hS.fail_zero 0]
    rfl
  refine ⟨gotoEq_refl T, List.nodup_singleton 0, ?_, List.mem_singleton.2 rfl,
    ?_, ?_, List.nodup_singleton 0, ?_, ?_, ?_, rfl, ?_, ?_, ?_, ?_, ?_⟩
  · intro v hv
    rw [List.mem_singleton.1 hv]
    exact hS.inv.nonempty
  · intro v hv
    rw [List.mem_singleton.1 hv]
    exact hfin0
  · intro v _ _
    rfl
  · intro v hv
    exact hv
  · intro u hu hq _ _
    exact absurd hu hq
  · intro v hv hv0
    exact absurd (List.mem_singleton.1 hv) hv0
  · intro v hv
    rw [List.mem_singleton.1 hv]
    exact ⟨[], rfl, rfl⟩
  · intro v hv
    simp at hv
  · intro v s _ hlen
    exact absurd hlen (by omega)
  · intro v s hs hlen
    have hse : s = [] := List.length_eq_zero.1 hlen
    subst hse
    simp only [followN, Option.some.injEq] at hs
    rw [← hs]
    exact List.mem_singleton.2 rfl
  · intro v hv
    rw [List.mem_singleton.1 hv]
    exact ⟨[], rfl, by simp⟩

theorem build_failure_spec {a : Automation C} {pats : List (List C)}
    (hS : TrieSpec a.nodes pats) :
    ∃ A, a.build_failure = some A ∧
      A.outputs = a.outputs ∧
      GotoEq a.nodes A.nodes ∧
      (∀ v s, followN a.nodes 0 s = some v →
        FinalNode a.nodes A.nodes v) := by
  have hfuel : ([0] : List Nat).length +
      (a.nodes.length - ([0] : List Nat).length) ≤ a.nodes.length := by
    have := hS.inv.nonempty
    simp only [List.length_singleton]
    omega
  obtain ⟨nodesF, hloop, hGF, hfinF⟩ := bfsLoop_master hS a.nodes.length
    a.nodes [0] [0] 0 [0] [] (bfsInv_init hS) hfuel
  refine ⟨⟨nodesF, a.outputs⟩, ?_, rfl, hGF, ?_⟩
  · show (bfsLoop a.nodes.length a.nodes [0]).map
      (fun nodes => Automation.mk nodes a.outputs) = _
    rw [hloop]
    rfl
  · intro v s hs
    exact hfinF v s hs

theorem build_spec (items : List (List C)) :
    ∃ A, Automation.build items = some A ∧
      A.outputs = items ∧
      GotoEq (buildTrie items).nodes A.nodes ∧
      (∀ v s, followN (buildTrie items).nodes 0 s = some v →
        FinalNode (buildTrie items).nodes A.nodes v) := by
  obtain ⟨hS, hout⟩ := buildTrie_spec (C := C) items
  obtain ⟨A, hbf, hAout, hGE, hfin⟩ := build_failure_spec hS
  exact ⟨A, hbf, by rw [hAout, hout], hGE, hfin⟩

/-! ## Membership in the closed output sets -/

theorem closedOut_mem {T : List (AutomationNode C)} {pats : List (List C)}
    (hS : TrieSpec T pats) :
    ∀ k s, s.length ≤ k → TrPath T s → ∀ j,
      (j ∈ closedOut T s.length s ↔
        j < pats.length ∧ pats.getD j [] <:+ s) := by
  have hnil : ∀ j, (j ∈ closedOut T ([] : List C).length [] ↔
      j < pats.length ∧ pats.getD j [] <:+ ([] : List C)) := by
    intro j
    have h0 : followN T 0 ([] : List C) = some 0 := rfl
    have := hS.out_char [] 0 h0 j
    show j ∈ (getN T (nodeOfD T ([] : List C))).outputs ↔ _
    have hn0 : nodeOfD T ([] : List C) = 0 := rfl
    rw [hn0, this]
    simp only [List.suffix_nil]
  intro k
  induction k with
  | zero =>
    intro s hk htr j
    have hse : s = [] := List.length_eq_zero.1 (by omega)
    subst hse
    exact hnil j
  | succ k ih =>
    intro s hk htr j
    cases hs : s with
    | nil => exact hnil j
    | cons c0 rest =>
      subst hs
      have hne : (c0 :: rest) ≠ [] := by simp
      rw [closedOut_unfold T hne]
      have hlt : (lspOf T (c0 :: rest)).length < (c0 :: rest).length :=
        lspOf_length_lt T hne
      have hih := ih (lspOf T (c0 :: rest))
        (by simp only [List.length_cons] at hk hlt ⊢; omega) (lspOf_tr T _) j
      have hown := hS.out_char (c0 :: rest) (nodeOfD T (c0 :: rest))
        (followN_nodeOfD htr) j
      rw [List.mem_append, List.mem_filter, hih]
      simp only [decide_eq_true_eq]
      constructor
      · rintro (hmem | ⟨⟨hj, hjs⟩, -⟩)
        · obtain ⟨hj, hjs⟩ := hown.1 hmem
          exact ⟨hj, hjs ▸ List.suffix_rfl⟩
        · exact ⟨hj, hjs.trans (lspOf_suffix T _)⟩
      · rintro ⟨hj, hjs⟩
        by_cases heq : pats.getD j [] = c0 :: rest
        · exact Or.inl (hown.2 ⟨hj, heq⟩)
        · refine Or.inr ⟨⟨hj, lspOf_max T hjs heq (hS.pat_tr j hj)⟩, ?_⟩
          intro hmem
          exact heq (hown.1 hmem).2
      
theorem closedOut_nodup {T : List (AutomationNode C)} {pats : List (List C)}
    (hS : TrieSpec T pats) :
    ∀ k s, s.length ≤ k → (closedOut T s.length s).Nodup := by
  intro k
  induction k with
  | zero =>
    intro s hk
    have hse : s = [] := List.length_eq_zero.1 (by omega)
    subst hse
    exact hS.out_nodup _
  | succ k ih =>
    intro s hk
    cases hs : s with
    | nil => exact hS.out_nodup _
    | cons c0 rest =>
      subst hs
      have hne : (c0 :: rest) ≠ [] := by simp
      rw [closedOut_unfold T hne]
      rw [List.nodup_append]
      refine ⟨hS.out_nodup _, ?_, ?_⟩
      · apply List.Nodup.filter
        have hlt : (lspOf T (c0 :: rest)).length < (c0 :: rest).length :=
          lspOf_length_lt T hne
        exact ih (lspOf T (c0 :: rest))
          (by simp only [List.length_cons] at hk hlt ⊢; omega)
      · intro x hx hxf
        rw [List.mem_filter] at hxf
        simp only [decide_eq_true_eq] at hxf
        exact hxf.2 hx

/-! ## The search cursor invariant -/

theorem lss_lss_snoc {T : List (AutomationNode C)} (hT : TrieInv T)
    (p : List C) (c : C) :
    lssOf T (p ++ [c]) = lssOf T (lssOf T p ++ [c]) := by
  have hmax2 : ∀ r, r <:+ p ++ [c] → TrPath T r →
      r <:+ lssOf T (lssOf T p ++ [c]) := by
    intro r hr hrtr
    rcases List.suffix_concat_iff.1 hr with rfl | ⟨r0, rfl, hr0⟩
    · exact List.nil_suffix
    · have hr0l : r0 <:+ lssOf T p :=
        lssOf_max T hr0 (trPath_of_snoc hrtr)
      exact lssOf_max T (suffix_snoc_snoc c hr0l) hrtr
  have h1 : lssOf T (p ++ [c]) <:+ lssOf T (lssOf T p ++ [c]) :=
    hmax2 _ (lssOf_suffix T _) (lssOf_tr T _)
  have h2 : lssOf T (lssOf T p ++ [c]) <:+ lssOf T (p ++ [c]) :=
    lssOf_max T ((lssOf_suffix T _).trans
      (suffix_snoc_snoc c (lssOf_suffix T p))) (lssOf_tr T _)
  exact suffix_antisymm h1 h2

theorem searchNext_spec {T : List (AutomationNode C)} {pats : List (List C)}
    {A : Automation C} (hS : TrieSpec T pats) (hGE : GotoEq T A.nodes)
    (hfin : ∀ v s, followN T 0 s = some v → FinalNode T A.nodes v)
    {m : List C} {x : Nat} (hm : followN T 0 m = some x) (c : C) :
    searchNext A x c = some (nodeOfD T (lssOf T (m ++ [c])),
      (getN A.nodes (nodeOfD T (lssOf T (m ++ [c])))).outputs) := by
  have hT : TrieInv T := hS.inv
  have hxlt : x < T.length := followN_lt hT hT.nonempty hm
  have hmlen : m.length ≤ x := by
    have := followN_le hT hm
    omega
  have hlen : T.length = A.nodes.length := hGE.1
  have hFail : ∀ y t, followN T 0 t = some y → t.length ≤ m.length →
      (getN A.nodes y).failure = nodeOfD T (lspOf T t) := by
    intro y t hy _
    exact (hfin y t hy t hy).1
  obtain ⟨w, hw, hconc⟩ := failWalk_spec hT hGE c m.length hFail
    A.nodes.length m x hm (Nat.le_refl _) (by omega)
  show (failWalk A.nodes c A.nodes.length x).map _ = _
  rw [hw]
  simp only [Option.map_some']
  rw [hconc]

theorem runSearch_spec {T : List (AutomationNode C)} {pats : List (List C)}
    {A : Automation C} (hS : TrieSpec T pats) (hGE : GotoEq T A.nodes)
    (hfin : ∀ v s, followN T 0 s = some v → FinalNode T A.nodes v) :
    ∀ (w p : List C),
      ∃ outs, runSearch A (nodeOfD T (lssOf T p)) w =
        some (nodeOfD T (lssOf T (p ++ w)), outs) ∧
        outs.length = w.length ∧
        ∀ i, i < w.length → outs.getD i [] =
          (getN A.nodes (nodeOfD T (lssOf T (p ++ w.take (i+1))))).outputs := by
  intro w
  induction w with
  | nil =>
    intro p
    refine ⟨[], ?_, rfl, ?_⟩
    · rw [List.append_nil]
      rfl
    · intro i hi
      simp at hi
  | cons c w' ih =>
    intro p
    have hT : TrieInv T := hS.inv
    have hmtr : TrPath T (lssOf T p) := lssOf_tr T p
    have hm : followN T 0 (lssOf T p) = some (nodeOfD T (lssOf T p)) :=
      followN_nodeOfD hmtr
    have hstep := searchNext_spec hS hGE hfin hm c
    have hbridge : lssOf T (lssOf T p ++ [c]) = lssOf T (p ++ [c]) :=
      (lss_lss_snoc hT p c).symm
    rw [hbridge] at hstep
    obtain ⟨outs', hrun', hlen', hget'⟩ := ih (p ++ [c])
    refine ⟨(getN A.nodes (nodeOfD T (lssOf T (p ++ [c])))).outputs :: outs',
      ?_, by simp [hlen'], ?_⟩
    · show (match searchNext A (nodeOfD T (lssOf T p)) c with
        | none => none
        | some (cur1, out) =>
          match runSearch A cur1 w' with
          | none => none
          | some (curF, outs) => some (curF, out :: outs)) = _
      rw [hstep]
      dsimp only
      rw [hrun']
      dsimp only
      have hassoc : p ++ [c] ++ w' = p ++ (c :: w') := by
        rw [List.append_assoc]
        rfl
      rw [hassoc]
    · intro i hi
      cases i with
      | zero =>
        simp only [List.getD_cons_zero, List.take_succ_cons, List.take_zero]
      | succ i =>
        simp only [List.getD_cons_succ]
        rw [hget' i (by simpa using hi)]
        have : p ++ (c :: w').take (i + 1 + 1) = (p ++ [c]) ++ w'.take (i+1) := by
          rw [List.take_succ_cons, List.append_assoc]
          rfl
        rw [this]

/-! ## Assembled facts about a successfully built automaton -/

theorem build_total (items : List (List C)) :
    ∃ A, Automation.build items = some A := by
  obtain ⟨A, hA, -, -, -⟩ := build_spec items
  exact ⟨A, hA⟩

theorem build_main {items : List (List C)} {A : Automation C}
    (hA : Automation.build items = some A) :
    A.outputs = items ∧
    GotoEq (buildTrie items).nodes A.nodes ∧
    (∀ v s, followN (buildTrie items).nodes 0 s = some v →
      FinalNode (buildTrie items).nodes A.nodes v) := by
  obtain ⟨A', h1, h2, h3, h4⟩ := build_spec items
  rw [hA] at h1
  obtain rfl : A' = A := by
    have := h1
    simp only [Option.some.injEq] at this
    exact this.symm
  exact ⟨h2, h3, h4⟩

theorem mem_bruteMatches {patterns : List (List C)} {w : List C}
    {i j : Nat} :
    j ∈ bruteMatches patterns w i ↔
      j < patterns.length ∧ patterns.getD j [] <:+ w.take (i+1) := by
  unfold bruteMatches
  rw [List.mem_filter, List.mem_range]
  simp only [decide_eq_true_eq]

theorem suffix_lss_iff {T : List (AutomationNode C)} {pats : List (List C)}
    (hS : TrieSpec T pats) {j : Nat} (hj : j < pats.length) (t : List C) :
    pats.getD j [] <:+ lssOf T t ↔ pats.getD j [] <:+ t := by
  constructor
  · intro h
    exact h.trans (lssOf_suffix T t)
  · intro h
    exact lssOf_max T h (hS.pat_tr j hj)

theorem outputs_mem_main {items : List (List C)} {A : Automation C}
    (hA : Automation.build items = some A) {v : Nat} {s : List C}
    (hs : followN (buildTrie items).nodes 0 s = some v) (j : Nat) :
    j ∈ (getN A.nodes v).outputs ↔
      j < items.length ∧ items.getD j [] <:+ s := by
  obtain ⟨hout, hGE, hfin⟩ := build_main hA
  obtain ⟨hS, -⟩ := buildTrie_spec (C := C) items
  have hcl := (hfin v s hs s hs).2
  rw [hcl]
  exact closedOut_mem hS s.length s (Nat.le_refl _) ⟨v, hs⟩ j

theorem runSearch_main {items : List (List C)} {A : Automation C}
    (hA : Automation.build items = some A) (w : List C) :
    ∃ outs, runSearch A 0 w =
      some (nodeOfD (buildTrie items).nodes
        (lssOf (buildTrie items).nodes w), outs) ∧
      outs.length = w.length ∧
      ∀ i, i < w.length → ∀ j,
        (j ∈ outs.getD i [] ↔
          j < items.length ∧ items.getD j [] <:+ w.take (i+1)) := by
  obtain ⟨hout, hGE, hfin⟩ := build_main hA
  obtain ⟨hS, -⟩ := buildTrie_spec (C := C) items
  obtain ⟨outs, hrun, hlen, hget⟩ := runSearch_spec hS hGE hfin w []
  have h0 : nodeOfD (buildTrie items).nodes
      (lssOf (buildTrie items).nodes []) = 0 := rfl
  rw [h0, List.nil_append] at hrun
  refine ⟨outs, hrun, hlen, ?_⟩
  intro i hi j
  rw [hget i hi, List.nil_append]
  have htr : TrPath (buildTrie items).nodes
      (lssOf (buildTrie items).nodes (w.take (i+1))) := lssOf_tr _ _
  have hnode := followN_nodeOfD htr
  rw [(hfin _ _ hnode _ hnode).2]
  rw [closedOut_mem hS _ _ (Nat.le_refl _) htr j]
  constructor
  · rintro ⟨hj, hjs⟩
    exact ⟨hj, (suffix_lss_iff hS hj _).1 hjs⟩
  · rintro ⟨hj, hjs⟩
    exact ⟨hj, (suffix_lss_iff hS hj _).2 hjs⟩

/-! ## The claims -/

/-- C1: end-to-end match reporting equals brute-force substring search.
For every finite pattern collection and every finite symbol stream, the
sequence returned by the cursor after consuming the i-th symbol names
exactly the pattern identities whose pattern occurs in the stream ending
at position i (equivalently, is a suffix of the first i+1 symbols),
including all overlapping/suffix matches in that single call. -/
theorem C1_search_equals_brute (patterns : List (List C))
    (A : Automation C) (hA : Automation.build patterns = some A)
    (w : List C) (cur : Nat) (outs : List (List Nat))
    (hrun : runSearch A 0 w = some (cur, outs)) :
    outs.length = w.length ∧
    ∀ i, i < w.length → ∀ j,
      (j ∈ outs.getD i [] ↔ j ∈ bruteMatches patterns w i) := by
  obtain ⟨outs', hrun', hlen', hget'⟩ := runSearch_main hA w
  rw [hrun] at hrun'
  simp only [Option.some.injEq, Prod.mk.injEq] at hrun'
  obtain ⟨-, rfl⟩ := hrun'
  refine ⟨hlen', ?_⟩
  intro i hi j
  rw [mem_bruteMatches]
  exact hget' i hi j

/-- C1 witness: patterns 12 and 2 over stream 12; at position 1 both
pattern identities are reported. -/
theorem C1_witness :
    (([[], [0, 1]] : List (List Nat)).length = ([1, 2] : List Nat).length) ∧
    ∀ i, i < ([1, 2] : List Nat).length → ∀ j,
      (j ∈ ([[], [0, 1]] : List (List Nat)).getD i [] ↔
        j ∈ bruteMatches [[1, 2], [2]] [1, 2] i) :=
  C1_search_equals_brute [[1, 2], [2]]
    ⟨[⟨[(1, 1), (2, 3)], 0, []⟩, ⟨[(2, 2)], 0, []⟩, ⟨[], 3, [0, 1]⟩,
      ⟨[], 0, [1]⟩], [[1, 2], [2]]⟩
    (by decide) [1, 2] 2 [[], [0, 1]] (by decide)

/-- C2: the failure links computed by build form the
longest-proper-suffix function: for every non-root node of the built
automaton, its failure field is the index of the node whose root path is
the longest proper suffix of the node's root path that is also a path
from the root (the root itself for depth-1 nodes, via the empty
suffix). -/
theorem C2_failure_is_longest_proper_suffix (patterns : List (List C))
    (A : Automation C) (hA : Automation.build patterns = some A)
    (v : Nat) (s : List C) (hs : followN A.nodes 0 s = some v)
    (hv : s ≠ []) :
    ∃ t, t <:+ s ∧ t ≠ s ∧
      followN A.nodes 0 t = some ((getN A.nodes v).failure) ∧
      ∀ r, r <:+ s → r ≠ s → (∃ x, followN A.nodes 0 r = some x) →
        r <:+ t := by
  obtain ⟨hout, hGE, hfin⟩ := build_main hA
  obtain ⟨hS, -⟩ := buildTrie_spec (C := C) patterns
  have hcongr : ∀ x u, followN A.nodes x u =
      followN (buildTrie patterns).nodes x u :=
    fun x u => (followN_congr hGE x u).symm
  have hsT : followN (buildTrie patterns).nodes 0 s = some v := by
    rw [← hcongr]
    exact hs
  have hfail := (hfin v s hsT s hsT).1
  refine ⟨lspOf (buildTrie patterns).nodes s, lspOf_suffix _ s, ?_, ?_, ?_⟩
  · intro heq
    have := lspOf_length_lt (buildTrie patterns).nodes hv
    rw [heq] at this
    omega
  · rw [hcongr, hfail]
    exact followN_nodeOfD (lspOf_tr _ s)
  · intro r hr hrne ⟨x, hx⟩
    refine lspOf_max _ hr hrne ⟨x, ?_⟩
    rw [← hcongr]
    exact hx

/-- C2 witness: in the automaton for patterns 12 and 2, the node of
path 12 has the node of path 2 as its failure target. -/
theorem C2_witness :
    ∃ t, t <:+ [1, 2] ∧ t ≠ [1, 2] ∧
      followN (⟨[⟨[(1, 1), (2, 3)], 0, []⟩, ⟨[(2, 2)], 0, []⟩,
        ⟨[], 3, [0, 1]⟩, ⟨[], 0, [1]⟩], [[1, 2], [2]]⟩ :
        Automation Nat).nodes 0 t =
        some ((getN (⟨[⟨[(1, 1), (2, 3)], 0, []⟩, ⟨[(2, 2)], 0, []⟩,
          ⟨[], 3, [0, 1]⟩, ⟨[], 0, [1]⟩], [[1, 2], [2]]⟩ :
          Automation Nat).nodes 2).failure) ∧
      ∀ r, r <:+ [1, 2] → r ≠ [1, 2] →
        (∃ x, followN (⟨[⟨[(1, 1), (2, 3)], 0, []⟩, ⟨[(2, 2)], 0, []⟩,
          ⟨[], 3, [0, 1]⟩, ⟨[], 0, [1]⟩], [[1, 2], [2]]⟩ :
          Automation Nat).nodes 0 r = some x) → r <:+ t :=
  C2_failure_is_longest_proper_suffix [[1, 2], [2]]
    ⟨[⟨[(1, 1), (2, 3)], 0, []⟩, ⟨[(2, 2)], 0, []⟩, ⟨[], 3, [0, 1]⟩,
      ⟨[], 0, [1]⟩], [[1, 2], [2]]⟩
    (by decide) 2 [1, 2] (by decide) (by decide)

/-- C3: output closure invariant of the built automaton: for every node,
its outputs are a superset (as a set) of the outputs of its failure
target, no pattern identity appears twice, and the order is the node's
own output entries (those of the pre-closure trie) first, followed by
the inherited ones with the already-present identities skipped. -/
theorem C3_output_closure (patterns : List (List C)) (A : Automation C)
    (hA : Automation.build patterns = some A) (v : Nat) (s : List C)
    (hs : followN A.nodes 0 s = some v) :
    (∀ j, j ∈ (getN A.nodes ((getN A.nodes v).failure)).outputs →
      j ∈ (getN A.nodes v).outputs) ∧
    (getN A.nodes v).outputs.Nodup ∧
    (getN A.nodes v).outputs =
      (getN (buildTrie patterns).nodes v).outputs ++
        (getN A.nodes ((getN A.nodes v).failure)).outputs.filter
          (fun o => decide (o ∉ (getN (buildTrie patterns).nodes v).outputs)) := by
  obtain ⟨hout, hGE, hfin⟩ := build_main hA
  obtain ⟨hS, -⟩ := buildTrie_spec (C := C) patterns
  have hsT : followN (buildTrie patterns).nodes 0 s = some v := by
    rw [followN_congr hGE]
    exact hs
  have hfail := (hfin v s hsT s hsT).1
  have hov := (hfin v s hsT s hsT).2
  have hlsptr : TrPath (buildTrie patterns).nodes
      (lspOf (buildTrie patterns).nodes s) := lspOf_tr _ s
  have hfT : followN (buildTrie patterns).nodes 0
      (lspOf (buildTrie patterns).nodes s) =
      some (nodeOfD (buildTrie patterns).nodes
        (lspOf (buildTrie patterns).nodes s)) := followN_nodeOfD hlsptr
  have hof : (getN A.nodes ((getN A.nodes v).failure)).outputs =
      closedOut (buildTrie patterns).nodes
        (lspOf (buildTrie patterns).nodes s).length
        (lspOf (buildTrie patterns).nodes s) := by
    rw [hfail]
    exact (hfin _ _ hfT _ hfT).2
  refine ⟨?_, ?_, ?_⟩
  · intro j hj
    rw [hof] at hj
    rw [hov]
    rw [closedOut_mem hS _ _ (Nat.le_refl _) hlsptr j] at hj
    rw [closedOut_mem hS _ _ (Nat.le_refl _) ⟨v, hsT⟩ j]
    exact ⟨hj.1, hj.2.trans (lspOf_suffix _ s)⟩
  · rw [hov]
    exact closedOut_nodup hS s.length s (Nat.le_refl _)
  · have hnv : nodeOfD (buildTrie patterns).nodes s = v := by
      simp [nodeOfD, hsT]
    cases hcs : s with
    | nil =>
      subst hcs
      have hv0 : v = 0 := by
        simp only [followN, Option.some.injEq] at hsT
        omega
      subst hv0
      have hfz : (getN A.nodes 0).failure = 0 := by
        rw [hfail]
        rfl
      rw [hfz]
      rw [hov]
      rw [closedOut_nil]
      have hroot : nodeOfD (buildTrie patterns).nodes ([] : List C) = 0 := rfl
      rw [hroot]
      have hfilter : ((getN (buildTrie patterns).nodes 0).outputs).filter
          (fun o => decide (o ∉ (getN (buildTrie patterns).nodes 0).outputs))
          = [] := by
        rw [List.filter_eq_nil_iff]
        intro a ha
        simp only [decide_eq_true_eq, Decidable.not_not]
        exact ha
      rw [hfilter, List.append_nil]
    | cons c0 rest =>
      subst hcs
      rw [hov, hof]
      rw [closedOut_unfold (buildTrie patterns).nodes (by simp)]
      rw [hnv]
  
/-- C3 witness: the node of path 12 in the automaton for patterns 12
and 2 inherits identity 1 from its failure target. -/
theorem C3_witness :
    (∀ j, j ∈ (getN (⟨[⟨[(1, 1), (2, 3)], 0, []⟩, ⟨[(2, 2)], 0, []⟩,
        ⟨[], 3, [0, 1]⟩, ⟨[], 0, [1]⟩], [[1, 2], [2]]⟩ :
        Automation Nat).nodes
        ((getN (⟨[⟨[(1, 1), (2, 3)], 0, []⟩, ⟨[(2, 2)], 0, []⟩,
          ⟨[], 3, [0, 1]⟩, ⟨[], 0, [1]⟩], [[1, 2], [2]]⟩ :
          Automation Nat).nodes 2).failure)).outputs →
      j ∈ (getN (⟨[⟨[(1, 1), (2, 3)], 0, []⟩, ⟨[(2, 2)], 0, []⟩,
        ⟨[], 3, [0, 1]⟩, ⟨[], 0, [1]⟩], [[1, 2], [2]]⟩ :
        Automation Nat).nodes 2).outputs) ∧
    (getN (⟨[⟨[(1, 1), (2, 3)], 0, []⟩, ⟨[(2, 2)], 0, []⟩,
      ⟨[], 3, [0, 1]⟩, ⟨[], 0, [1]⟩], [[1, 2], [2]]⟩ :
      Automation Nat).nodes 2).outputs.Nodup ∧
    (getN (⟨[⟨[(1, 1), (2, 3)], 0, []⟩, ⟨[(2, 2)], 0, []⟩,
      ⟨[], 3, [0, 1]⟩, ⟨[], 0, [1]⟩], [[1, 2], [2]]⟩ :
      Automation Nat).nodes 2).outputs =
      (getN (buildTrie [[1, 2], [2]]).nodes 2).outputs ++
        (getN (⟨[⟨[(1, 1), (2, 3)], 0, []⟩, ⟨[(2, 2)], 0, []⟩,
          ⟨[], 3, [0, 1]⟩, ⟨[], 0, [1]⟩], [[1, 2], [2]]⟩ :
          Automation Nat).nodes
          ((getN (⟨[⟨[(1, 1), (2, 3)], 0, []⟩, ⟨[(2, 2)], 0, []⟩,
            ⟨[], 3, [0, 1]⟩, ⟨[], 0, [1]⟩], [[1, 2], [2]]⟩ :
            Automation Nat).nodes 2).failure)).outputs.filter
          (fun o => decide (o ∉ (getN (buildTrie [[1, 2], [2]]).nodes
            2).outputs)) :=
  C3_output_closure [[1, 2], [2]]
    ⟨[⟨[(1, 1), (2, 3)], 0, []⟩, ⟨[(2, 2)], 0, []⟩, ⟨[], 3, [0, 1]⟩,
      ⟨[], 0, [1]⟩], [[1, 2], [2]]⟩
    (by decide) 2 [1, 2] (by decide)

/-- C4: search totality: for any built automaton and any finite symbol
stream, feeding the symbols one at a time always produces a result (the
fueled failure walk inside each step terminates and no assertion fires,
so no step returns the divergence marker), and the cursor's current
field is a valid node index after every prefix of the stream. -/
theorem C4_search_total (patterns : List (List C)) (A : Automation C)
    (hA : Automation.build patterns = some A) (w : List C) :
    ∃ cur outs, runSearch A 0 w = some (cur, outs) ∧
      cur < A.nodes.length ∧ outs.length = w.length ∧
      ∀ i, i ≤ w.length → ∃ curI outsI,
        runSearch A 0 (w.take i) = some (curI, outsI) ∧
        curI < A.nodes.length := by
  obtain ⟨hout, hGE, hfin⟩ := build_main hA
  obtain ⟨hS, -⟩ := buildTrie_spec (C := C) patterns
  have hcur : ∀ u : List C, nodeOfD (buildTrie patterns).nodes
      (lssOf (buildTrie patterns).nodes u) < A.nodes.length := by
    intro u
    rw [← hGE.1]
    exact followN_lt hS.inv hS.inv.nonempty
      (followN_nodeOfD (lssOf_tr _ u))
  obtain ⟨outs, hrun, hlen, -⟩ := runSearch_main hA w
  refine ⟨_, outs, hrun, hcur w, hlen, ?_⟩
  intro i hi
  obtain ⟨outsI, hrunI, -, -⟩ := runSearch_main hA (w.take i)
  exact ⟨_, outsI, hrunI, hcur (w.take i)⟩

/-- C4 witness: searching the stream 192 over the automaton for
patterns 12 and 2 succeeds with in-range cursors at every prefix. -/
theorem C4_witness :
    ∃ cur outs, runSearch (⟨[⟨[(1, 1), (2, 3)], 0, []⟩, ⟨[(2, 2)], 0, []⟩,
      ⟨[], 3, [0, 1]⟩, ⟨[], 0, [1]⟩], [[1, 2], [2]]⟩ : Automation Nat)
      0 [1, 9, 2] = some (cur, outs) ∧
      cur < (⟨[⟨[(1, 1), (2, 3)], 0, []⟩, ⟨[(2, 2)], 0, []⟩,
        ⟨[], 3, [0, 1]⟩, ⟨[], 0, [1]⟩], [[1, 2], [2]]⟩ :
        Automation Nat).nodes.length ∧
      outs.length = ([1, 9, 2] : List Nat).length ∧
      ∀ i, i ≤ ([1, 9, 2] : List Nat).length → ∃ curI outsI,
        runSearch (⟨[⟨[(1, 1), (2, 3)], 0, []⟩, ⟨[(2, 2)], 0, []⟩,
          ⟨[], 3, [0, 1]⟩, ⟨[], 0, [1]⟩], [[1, 2], [2]]⟩ : Automation Nat)
          0 (([1, 9, 2] : List Nat).take i) = some (curI, outsI) ∧
        curI < (⟨[⟨[(1, 1), (2, 3)], 0, []⟩, ⟨[(2, 2)], 0, []⟩,
          ⟨[], 3, [0, 1]⟩, ⟨[], 0, [1]⟩], [[1, 2], [2]]⟩ :
          Automation Nat).nodes.length :=
  C4_search_total [[1, 2], [2]]
    ⟨[⟨[(1, 1), (2, 3)], 0, []⟩, ⟨[(2, 2)], 0, []⟩, ⟨[], 3, [0, 1]⟩,
      ⟨[], 0, [1]⟩], [[1, 2], [2]]⟩
    (by decide) [1, 9, 2]

/-- C5: failure shortening and no self-failure: build always succeeds
(in particular the runtime assertion checked during failure construction
never fails and the failure walks terminate), and for every non-root
node of the built automaton the path length of its failure target is
strictly smaller than its own path length; hence no node is its own
failure target. -/
theorem C5_failure_shortens (patterns : List (List C)) :
    (∃ A, Automation.build patterns = some A) ∧
    ∀ A, Automation.build patterns = some A →
      ∀ v s, followN A.nodes 0 s = some v → s ≠ [] →
        (∃ t, followN A.nodes 0 t = some ((getN A.nodes v).failure) ∧
          t.length < s.length) ∧
        (getN A.nodes v).failure ≠ v := by
  refine ⟨build_total patterns, ?_⟩
  intro A hA v s hs hv
  obtain ⟨hout, hGE, hfin⟩ := build_main hA
  obtain ⟨hS, -⟩ := buildTrie_spec (C := C) patterns
  have hsT : followN (buildTrie patterns).nodes 0 s = some v := by
    rw [followN_congr hGE]
    exact hs
  have hfail := (hfin v s hsT s hsT).1
  have hlsptr : TrPath (buildTrie patterns).nodes
      (lspOf (buildTrie patterns).nodes s) := lspOf_tr _ s
  have hfT : followN (buildTrie patterns).nodes 0
      (lspOf (buildTrie patterns).nodes s) =
      some (nodeOfD (buildTrie patterns).nodes
        (lspOf (buildTrie patterns).nodes s)) := followN_nodeOfD hlsptr
  have hlen : (lspOf (buildTrie patterns).nodes s).length < s.length :=
    lspOf_length_lt _ hv
  constructor
  · refine ⟨lspOf (buildTrie patterns).nodes s, ?_, hlen⟩
    rw [followN_congr hGE, ← hfail] at hfT
    exact hfT
  · intro heq
    rw [hfail] at heq
    have := followN_inj hS.inv v (lspOf (buildTrie patterns).nodes s) s
      (heq ▸ hfT) hsT
    rw [this] at hlen
    omega

/-- C5 witness: building patterns 12 and 2 succeeds, and the failure
target of the depth-2 node has a strictly shorter path. -/
theorem C5_witness :
    (∃ A, Automation.build ([[1, 2], [2]] : List (List Nat)) = some A) ∧
    ((∃ t, followN (⟨[⟨[(1, 1), (2, 3)], 0, []⟩, ⟨[(2, 2)], 0, []⟩,
        ⟨[], 3, [0, 1]⟩, ⟨[], 0, [1]⟩], [[1, 2], [2]]⟩ :
        Automation Nat).nodes 0 t =
        some ((getN (⟨[⟨[(1, 1), (2, 3)], 0, []⟩, ⟨[(2, 2)], 0, []⟩,
          ⟨[], 3, [0, 1]⟩, ⟨[], 0, [1]⟩], [[1, 2], [2]]⟩ :
          Automation Nat).nodes 2).failure) ∧
        t.length < ([1, 2] : List Nat).length) ∧
      (getN (⟨[⟨[(1, 1), (2, 3)], 0, []⟩, ⟨[(2, 2)], 0, []⟩,
        ⟨[], 3, [0, 1]⟩, ⟨[], 0, [1]⟩], [[1, 2], [2]]⟩ :
        Automation Nat).nodes 2).failure ≠ 2) :=
  ⟨(C5_failure_shortens [[1, 2], [2]]).1,
   (C5_failure_shortens [[1, 2], [2]]).2
    ⟨[⟨[(1, 1), (2, 3)], 0, []⟩, ⟨[(2, 2)], 0, []⟩, ⟨[], 3, [0, 1]⟩,
      ⟨[], 0, [1]⟩], [[1, 2], [2]]⟩
    (by decide) 2 [1, 2] (by decide) (by decide)⟩

/-- C6: cursor state invariant: after a cursor created at the root
consumes any finite symbol sequence, its current field is the node
whose root path equals the longest suffix of the consumed sequence that
is also a path of the trie; the empty suffix gives the root. -/
theorem C6_cursor_at_longest_suffix (patterns : List (List C))
    (A : Automation C) (hA : Automation.build patterns = some A)
    (w : List C) (cur : Nat) (outs : List (List Nat))
    (hrun : runSearch A 0 w = some (cur, outs)) :
    ∃ t, t <:+ w ∧ followN A.nodes 0 t = some cur ∧
      ∀ r, r <:+ w → (∃ x, followN A.nodes 0 r = some x) → r <:+ t := by
  obtain ⟨hout, hGE, hfin⟩ := build_main hA
  obtain ⟨outs', hrun', -, -⟩ := runSearch_main hA w
  rw [hrun] at hrun'
  simp only [Option.some.injEq, Prod.mk.injEq] at hrun'
  obtain ⟨hcur, -⟩ := hrun'
  refine ⟨lssOf (buildTrie patterns).nodes w, lssOf_suffix _ w, ?_, ?_⟩
  · rw [← followN_congr hGE, followN_nodeOfD (lssOf_tr _ w), hcur]
  · intro r hr ⟨x, hx⟩
    refine lssOf_max _ hr ⟨x, ?_⟩
    rw [followN_congr hGE]
    exact hx

/-- C6 witness: after consuming 192 the cursor of the automaton for
patterns 12 and 2 sits at the node of path 2, the longest trie suffix
of the stream. -/
theorem C6_witness :
    ∃ t, t <:+ [1, 9, 2] ∧
      followN (⟨[⟨[(1, 1), (2, 3)], 0, []⟩, ⟨[(2, 2)], 0, []⟩,
        ⟨[], 3, [0, 1]⟩, ⟨[], 0, [1]⟩], [[1, 2], [2]]⟩ :
        Automation Nat).nodes 0 t = some 3 ∧
      ∀ r, r <:+ [1, 9, 2] →
        (∃ x, followN (⟨[⟨[(1, 1), (2, 3)], 0, []⟩, ⟨[(2, 2)], 0, []⟩,
          ⟨[], 3, [0, 1]⟩, ⟨[], 0, [1]⟩], [[1, 2], [2]]⟩ :
          Automation Nat).nodes 0 r = some x) → r <:+ t :=
  C6_cursor_at_longest_suffix [[1, 2], [2]]
    ⟨[⟨[(1, 1), (2, 3)], 0, []⟩, ⟨[(2, 2)], 0, []⟩, ⟨[], 3, [0, 1]⟩,
      ⟨[], 0, [1]⟩], [[1, 2], [2]]⟩
    (by decide) [1, 9, 2] 3 [[], [], [1]] (by decide)

/-- C7: identity numbering and duplicate patterns: the identity catalog
of the built automaton is exactly the insertion-ordered pattern list
(the i-th pattern receives identity i, one fresh identity per pattern,
duplicates included); two insertions of the same pattern yield two
distinct output entries at the same terminal node, and a search over a
stream containing the pattern reports both identities at the completing
position. -/
theorem C7_identity_numbering (patterns : List (List C))
    (A : Automation C) (hA : Automation.build patterns = some A) :
    A.outputs = patterns ∧
    ∀ i j, i < patterns.length → j < patterns.length → i ≠ j →
      patterns.getD i [] = patterns.getD j [] →
      (i ∈ (getN A.nodes
          (nodeOfD A.nodes (patterns.getD i []))).outputs ∧
       j ∈ (getN A.nodes
          (nodeOfD A.nodes (patterns.getD i []))).outputs) ∧
      (∀ w cur outs k, runSearch A 0 w = some (cur, outs) →
        k < w.length → patterns.getD i [] <:+ w.take (k+1) →
        i ∈ outs.getD k [] ∧ j ∈ outs.getD k []) := by
  obtain ⟨hout, hGE, hfin⟩ := build_main hA
  obtain ⟨hS, -⟩ := buildTrie_spec (C := C) patterns
  refine ⟨hout, ?_⟩
  intro i j hi hj hij heq
  have htr : TrPath (buildTrie patterns).nodes (patterns.getD i []) :=
    hS.pat_tr i hi
  have hterm : followN (buildTrie patterns).nodes 0 (patterns.getD i []) =
      some (nodeOfD (buildTrie patterns).nodes (patterns.getD i [])) :=
    followN_nodeOfD htr
  have hnode : nodeOfD A.nodes (patterns.getD i []) =
      nodeOfD (buildTrie patterns).nodes (patterns.getD i []) :=
    (nodeOfD_congr hGE _).symm
  constructor
  · rw [hnode]
    constructor
    · rw [outputs_mem_main hA hterm i]
      exact ⟨hi, List.suffix_rfl⟩
    · rw [outputs_mem_main hA hterm j]
      rw [← heq]
      exact ⟨hj, List.suffix_rfl⟩
  · intro w cur outs k hrun hk hsuf
    obtain ⟨outs', hrun', hlen', hget'⟩ := runSearch_main hA w
    rw [hrun] at hrun'
    simp only [Option.some.injEq, Prod.mk.injEq] at hrun'
    obtain ⟨-, rfl⟩ := hrun'
    constructor
    · rw [hget' k hk i]
      exact ⟨hi, hsuf⟩
    · rw [hget' k hk j]
      rw [← heq]
      exact ⟨hj, hsuf⟩

/-- C7 witness: inserting the pattern 0 twice gives catalog entries 0
and 1, both identities at the shared terminal node, and both reported
when the stream contains the pattern. -/
theorem C7_witness :
    (⟨[⟨[(0, 1)], 0, []⟩, ⟨[], 0, [0, 1]⟩], [[0], [0]]⟩ :
      Automation Nat).outputs = [[0], [0]] ∧
    ∀ i j, i < ([[0], [0]] : List (List Nat)).length →
      j < ([[0], [0]] : List (List Nat)).length → i ≠ j →
      ([[0], [0]] : List (List Nat)).getD i [] =
        ([[0], [0]] : List (List Nat)).getD j [] →
      (i ∈ (getN (⟨[⟨[(0, 1)], 0, []⟩, ⟨[], 0, [0, 1]⟩],
          [[0], [0]]⟩ : Automation Nat).nodes
          (nodeOfD (⟨[⟨[(0, 1)], 0, []⟩, ⟨[], 0, [0, 1]⟩],
            [[0], [0]]⟩ : Automation Nat).nodes
            (([[0], [0]] : List (List Nat)).getD i []))).outputs ∧
       j ∈ (getN (⟨[⟨[(0, 1)], 0, []⟩, ⟨[], 0, [0, 1]⟩],
          [[0], [0]]⟩ : Automation Nat).nodes
          (nodeOfD (⟨[⟨[(0, 1)], 0, []⟩, ⟨[], 0, [0, 1]⟩],
            [[0], [0]]⟩ : Automation Nat).nodes
            (([[0], [0]] : List (List Nat)).getD i []))).outputs) ∧
      (∀ w cur outs k,
        runSearch (⟨[⟨[(0, 1)], 0, []⟩, ⟨[], 0, [0, 1]⟩],
          [[0], [0]]⟩ : Automation Nat) 0 w = some (cur, outs) →
        k < w.length →
        ([[0], [0]] : List (List Nat)).getD i [] <:+ w.take (k+1) →
        i ∈ outs.getD k [] ∧ j ∈ outs.getD k []) :=
  C7_identity_numbering [[0], [0]]
    ⟨[⟨[(0, 1)], 0, []⟩, ⟨[], 0, [0, 1]⟩], [[0], [0]]⟩ (by decide)

/-- C8: empty-pattern edge case: building with a zero-symbol pattern
attaches that pattern's output entry directly to the root node, and
thereafter every step of every search cursor reports that pattern's
identity, for every symbol of any stream. -/
theorem C8_empty_pattern (patterns : List (List C)) (A : Automation C)
    (hA : Automation.build patterns = some A) (j : Nat)
    (hj : j < patterns.length) (hempty : patterns.getD j [] = []) :
    j ∈ (getN A.nodes 0).outputs ∧
    ∀ w cur outs, runSearch A 0 w = some (cur, outs) →
      ∀ i, i < w.length → j ∈ outs.getD i [] := by
  have hroot : followN (buildTrie patterns).nodes 0 ([] : List C) =
      some 0 := rfl
  constructor
  · rw [outputs_mem_main hA hroot j]
    exact ⟨hj, by rw [hempty]⟩
  · intro w cur outs hrun i hi
    obtain ⟨outs', hrun', hlen', hget'⟩ := runSearch_main hA w
    rw [hrun] at hrun'
    simp only [Option.some.injEq, Prod.mk.injEq] at hrun'
    obtain ⟨-, rfl⟩ := hrun'
    rw [hget' i hi j]
    exact ⟨hj, by rw [hempty]; exact List.nil_suffix⟩

/-- C8 witness: with patterns empty and 5, identity 0 sits at the root
and is reported at both steps of the stream 45. -/
theorem C8_witness :
    0 ∈ (getN (⟨[⟨[(5, 1)], 0, [0]⟩, ⟨[], 0, [1, 0]⟩],
      [[], [5]]⟩ : Automation Nat).nodes 0).outputs ∧
    ∀ w cur outs, runSearch (⟨[⟨[(5, 1)], 0, [0]⟩, ⟨[], 0, [1, 0]⟩],
      [[], [5]]⟩ : Automation Nat) 0 w = some (cur, outs) →
      ∀ i, i < w.length → 0 ∈ outs.getD i [] :=
  C8_empty_pattern [[], [5]]
    ⟨[⟨[(5, 1)], 0, [0]⟩, ⟨[], 0, [1, 0]⟩], [[], [5]]⟩
    (by decide) 0 (by decide) (by decide)

/-- C9: empty pattern collection: build applied to no patterns yields a
root-only automaton (exactly one node with no outputs and no edges),
and the cursor over it returns an empty output sequence from every step
on any input stream. -/
theorem C9_empty_collection :
    Automation.build ([] : List (List C)) =
      some ⟨[⟨[], 0, []⟩], []⟩ ∧
    ∀ w : List C,
      runSearch (⟨[⟨[], 0, []⟩], []⟩ : Automation C) 0 w =
        some (0, List.replicate w.length []) := by
  constructor
  · rfl
  · intro w
    induction w with
    | nil => rfl
    | cons c w ih =>
      have hstep : searchNext (⟨[⟨[], 0, []⟩], []⟩ : Automation C) 0 c =
          some (0, []) := rfl
      show (match searchNext (⟨[⟨[], 0, []⟩], []⟩ : Automation C) 0 c with
        | none => none
        | some (cur1, out) =>
          match runSearch (⟨[⟨[], 0, []⟩], []⟩ : Automation C) cur1 w with
          | none => none
          | some (curF, outs) => some (curF, out :: outs)) = _
      rw [hstep]
      dsimp only
      rw [ih]
      dsimp only
      rw [List.length_cons, List.replicate_succ]

/-- C10: two-run determinism of search: over one built automaton, two
independently created cursors fed the same finite symbol stream succeed
and return identical, order-matching output sequences at every step. -/
theorem C10_two_cursor_determinism (patterns : List (List C))
    (A : Automation C) (hA : Automation.build patterns = some A)
    (w : List C) :
    (∃ cur outs, runSearch A A.search w = some (cur, outs)) ∧
    ∀ r1 r2, runSearch A A.search w = r1 → runSearch A A.search w = r2 →
      r1 = r2 := by
  constructor
  · obtain ⟨outs, hrun, -, -⟩ := runSearch_main hA w
    exact ⟨_, outs, hrun⟩
  · intro r1 r2 h1 h2
    rw [← h1, ← h2]

/-- C10 witness: two cursors over the automaton for patterns 12 and 2
agree on the stream 12. -/
theorem C10_witness :
    (∃ cur outs, runSearch (⟨[⟨[(1, 1), (2, 3)], 0, []⟩,
      ⟨[(2, 2)], 0, []⟩, ⟨[], 3, [0, 1]⟩, ⟨[], 0, [1]⟩],
      [[1, 2], [2]]⟩ : Automation Nat)
      (Automation.search ⟨[⟨[(1, 1), (2, 3)], 0, []⟩, ⟨[(2, 2)], 0, []⟩,
        ⟨[], 3, [0, 1]⟩, ⟨[], 0, [1]⟩], [[1, 2], [2]]⟩) [1, 2] =
      some (cur, outs)) ∧
    ∀ r1 r2, runSearch (⟨[⟨[(1, 1), (2, 3)], 0, []⟩, ⟨[(2, 2)], 0, []⟩,
      ⟨[], 3, [0, 1]⟩, ⟨[], 0, [1]⟩], [[1, 2], [2]]⟩ : Automation Nat)
      (Automation.search ⟨[⟨[(1, 1), (2, 3)], 0, []⟩, ⟨[(2, 2)], 0, []⟩,
        ⟨[], 3, [0, 1]⟩, ⟨[], 0, [1]⟩], [[1, 2], [2]]⟩) [1, 2] = r1 →
      runSearch (⟨[⟨[(1, 1), (2, 3)], 0, []⟩, ⟨[(2, 2)], 0, []⟩,
        ⟨[], 3, [0, 1]⟩, ⟨[], 0, [1]⟩], [[1, 2], [2]]⟩ : Automation Nat)
      (Automation.search ⟨[⟨[(1, 1), (2, 3)], 0, []⟩, ⟨[(2, 2)], 0, []⟩,
        ⟨[], 3, [0, 1]⟩, ⟨[], 0, [1]⟩], [[1, 2], [2]]⟩) [1, 2] = r2 →
      r1 = r2 :=
  C10_two_cursor_determinism [[1, 2], [2]]
    ⟨[⟨[(1, 1), (2, 3)], 0, []⟩, ⟨[(2, 2)], 0, []⟩, ⟨[], 3, [0, 1]⟩,
      ⟨[], 0, [1]⟩], [[1, 2], [2]]⟩
    (by decide) [1, 2]
